import Mathlib

/-!
# Prime-Plotter: `prime_finder.c`

A shallow embedding of `src/prime_finder.c` and the properties established about it.
Unsigned 64-bit values are natural numbers with every operation reduced modulo `2 ^ 64`;
loops carry an explicit bound on the number of iterations and return `none` when it runs out.
-/

set_option maxRecDepth 100000

namespace PrimePlotter

/-! ## Definitions -/

/-- Number of values of the C type `uint64_t`; all unsigned arithmetic is taken modulo it. -/
def U64 : Nat := 2 ^ 64

/-- The trial-division loop of `is_prime` (source lines 58-62), started at divisor `i`.
The first argument bounds the number of iterations; `none` stands for "no value returned":
either the iteration bound ran out or a remainder by zero was requested (undefined in C).
`i * i`, `i + 2` and `i += 6` are computed modulo `2 ^ 64`; the `||` is evaluated left to
right and stops at the first true operand. -/
def is_prime_loop : Nat → Nat → Nat → Option Nat
  | 0, _, _ => none
  | fuel + 1, n, i =>
    if (i * i) % U64 ≤ n then
      if i = 0 then none
      else if n % i = 0 then some 0
      else if (i + 2) % U64 = 0 then none
      else if n % ((i + 2) % U64) = 0 then some 0
      else is_prime_loop fuel n ((i + 6) % U64)
    else some 1

/-- The function `is_prime` (source lines 47-65) with an explicit iteration bound for its loop. -/
def is_prime_fuel (fuel n : Nat) : Option Nat :=
  if n < 2 then some 0
  else if n = 2 ∨ n = 3 then some 1
  else if n % 2 = 0 ∨ n % 3 = 0 then some 0
  else is_prime_loop fuel n 5

/-- The function `is_prime`. The loop variable `i` has `2 ^ 64` possible values and is the only
thing that changes between iterations, so a run that has not returned after `2 ^ 64` iterations
never returns: the result is `none` exactly when the C function yields no value. -/
def is_prime (n : Nat) : Option Nat := is_prime_fuel U64 n

/-- A divisor candidate of the form `6 k + 5` whose square, reduced modulo `2 ^ 64`, equals
`2 ^ 64 - 7` and therefore exceeds every 64-bit prime. -/
def wrapStop : Nat := 1852311383259529397

/-- Modular exponentiation by repeated squaring, used to check primality certificates. -/
def powMod (p : Nat) : Nat → Nat → Nat → Nat
  | 0, _, _ => 1 % p
  | f + 1, a, e =>
    if e = 0 then 1 % p
    else if e % 2 = 1 then (a * powMod p f (a * a % p) (e / 2)) % p
    else powMod p f (a * a % p) (e / 2)

/-- The prime `2 ^ 64 - 543675`, which lies above `(2 ^ 32 - 5) ^ 2`. -/
def bigPrime : Nat := 18446744073709007941

/-- The range computation of `thread_func` (source lines 76-78): the pair `(start, end)`
obtained from `pid`, `tid`, `thread_num`, `range` and `start_num` in 64-bit arithmetic. -/
def thread_range (pid tid thread_num range start_num : Nat) : Nat × Nat :=
  let tidx := ((pid * thread_num) % U64 + tid) % U64
  let start := (start_num + (tidx * range) % U64) % U64
  let end_ := (start + range) % U64
  (start, end_)

/-- Size in bytes of one `uint64_t`. -/
def sizeof_uint64_t : Nat := 8

/-- The number of `uint64_t` elements the buffer of `thread_func` has room for (source line
80, `malloc(range * sizeof(uint64_t))`) when the allocation succeeds: the byte count is the
product reduced to the width of `size_t`, taken as 64 bits. -/
def found_capacity (range : Nat) : Nat :=
  ((range * sizeof_uint64_t) % U64) / sizeof_uint64_t

/-- How a run of `thread_func` ends. -/
inductive ThreadResult where
  /-- The scan finished and `make_primes_file` was called with the entries
  `found[0], …, found[count - 1]`. -/
  | handed_over (found : List Nat)
  /-- The write `found[index] = value` addressed an element the buffer does not have, or
  there is no buffer because `malloc` returned a null pointer. The behaviour of the C program
  is undefined from here on and the run is followed no further. -/
  | out_of_bounds (index value : Nat)
  /-- No end within the iteration bound, or `is_prime` returned no value. -/
  | no_return
deriving DecidableEq

/-- The scanning loop of `thread_func` (source lines 94-98): `n` runs from its initial value in
steps of 2 while `n < end`. `cap` is the number of elements the buffer `found` has room for
and `found` holds the entries written so far, so `count` is its length; a write
`found[count++] = n` with `count` not below `cap` ends the run as `out_of_bounds`. The first
argument bounds the number of iterations. -/
def thread_func_loop : Nat → Nat → Nat → Nat → List Nat → ThreadResult
  | 0, _, _, _, _ => ThreadResult.no_return
  | fuel + 1, cap, end_, n, found =>
    if n < end_ then
      match is_prime n with
      | none => ThreadResult.no_return
      | some r =>
        if r ≠ 0 then
          if found.length < cap then
            thread_func_loop fuel cap end_ ((n + 2) % U64) (found ++ [n])
          else ThreadResult.out_of_bounds found.length n
        else thread_func_loop fuel cap end_ ((n + 2) % U64) found
    else ThreadResult.handed_over found

/-- The part of `thread_func` that works on the buffer (source lines 81-98), for a buffer
with room for `cap` elements: the membership test for 2 with its write `found[0] = 2`, the
choice of the first odd candidate, and the scanning loop. The first candidate (lines 86-92)
is computed from `start` alone, so it is written here ahead of the test for 2. -/
def thread_scan (cap start end_ : Nat) : ThreadResult :=
  let first := start
  let first := if first < 3 then 3 else first
  let first := if first % 2 = 0 then (first + 1) % U64 else first
  if start ≤ 2 ∧ 2 < end_ then
    if 0 < cap then thread_func_loop U64 cap end_ first [2]
    else ThreadResult.out_of_bounds 0 2
  else thread_func_loop U64 cap end_ first []

/-- The function `thread_func` (source lines 67-104). `malloc_succeeds` tells whether the
call `malloc(range * sizeof(uint64_t))` of line 80 returns a buffer; the result of the call
is not tested by the source. With a buffer there is room for `found_capacity range`
elements, with a null pointer for none. -/
def thread_func (malloc_succeeds : Bool) (pid tid thread_num range start_num : Nat) :
    ThreadResult :=
  let r := thread_range pid tid thread_num range start_num
  let cap := if malloc_succeeds then found_capacity range else 0
  thread_scan cap r.1 r.2

/-- The odd primes among `n, n + 1, …, e - 1`, in increasing order. -/
def oddPrimesFrom (n e : Nat) : List Nat :=
  (List.range' n (e - n)).filter (fun m => decide (m % 2 = 1 ∧ m.Prime))

/-- The list `thread_scan` hands over for `start` and `e` when the buffer has room for it,
written without the loop. -/
def scanResult (start e : Nat) : List Nat :=
  (if start ≤ 2 ∧ 2 < e then [2] else []) ++
    oddPrimesFrom (if start < 3 then 3 else if start % 2 = 0 then start + 1 else start) e

/-- The character class `isspace` of the C locale: space, `\t`, `\n`, `\v`, `\f`, `\r`. -/
def isspace (c : Char) : Bool :=
  c.toNat = 32 || (9 ≤ c.toNat && c.toNat ≤ 13)

/-- The character class `isdigit`: `0` … `9`. -/
def isdigit (c : Char) : Bool :=
  48 ≤ c.toNat && c.toNat ≤ 57

/-- The number denoted by a sequence of decimal digits, most significant first. -/
def digitsValue (ds : List Char) : Nat :=
  ds.foldl (fun a c => 10 * a + (c.toNat - 48)) 0

/-- What a call of `strtoull` yields: the returned value, the text `endptr` is left pointing
at, and whether `errno` was set to `ERANGE`. -/
structure StrtoullResult where
  value : Nat
  rest : List Char
  erange : Bool
deriving DecidableEq, Repr

/-- The library function `strtoull(s, &endptr, 10)` as the C standard describes it (it is not
part of the repository): white space is skipped, an optional sign is read, then the longest
run of decimal digits. Without a digit no conversion is performed: the value is 0 and
`endptr` is `s`. A value above `2 ^ 64 - 1` yields `ULLONG_MAX` and `ERANGE`; after a minus
sign the value is negated in the unsigned type. -/
def strtoull (s : List Char) : StrtoullResult :=
  let body := s.dropWhile isspace
  let neg : Bool := body.head? = some '-'
  let body := if body.head? = some '+' ∨ body.head? = some '-' then body.tail else body
  let ds := body.takeWhile isdigit
  if ds = [] then ⟨0, s, false⟩
  else if U64 ≤ digitsValue ds then ⟨U64 - 1, body.dropWhile isdigit, true⟩
  else ⟨if neg then (U64 - digitsValue ds) % U64 else digitsValue ds, body.dropWhile isdigit, false⟩

/-- Value of `errno` after a range error. -/
def ERANGE : Nat := 34

/-- How far `main` gets (source lines 106-138): either the process exits with a status before
any output storage is touched, or `make_primes_dir` is called with the four parsed numbers in
hand. What `main` does afterwards is outside this model. -/
inductive MainOutcome where
  | exit (status : Nat)
  | make_primes_dir_called (process_num thread_num range start_num : Nat)
deriving DecidableEq, Repr

/-- The argument validation of `main` (source lines 106-138). `argv` includes the program name,
so `argc` is its length. `errno` is cleared once, before the first conversion. -/
def main (argv : List (List Char)) : MainOutcome :=
  match argv with
  | [_, a1, a2, a3, a4] =>
    let errno := 0
    let r := strtoull a1
    let errno := if r.erange then ERANGE else errno
    let process_num := r.value
    if errno ≠ 0 ∨ r.rest ≠ [] ∨ process_num = 0 then MainOutcome.exit 1
    else
      let r := strtoull a2
      let errno := if r.erange then ERANGE else errno
      let thread_num := r.value
      if errno ≠ 0 ∨ r.rest ≠ [] ∨ thread_num = 0 then MainOutcome.exit 1
      else
        let r := strtoull a3
        let errno := if r.erange then ERANGE else errno
        let range := r.value
        if errno ≠ 0 ∨ r.rest ≠ [] ∨ range = 0 then MainOutcome.exit 1
        else
          let r := strtoull a4
          let errno := if r.erange then ERANGE else errno
          let start_num := r.value
          if errno ≠ 0 ∨ r.rest ≠ [] ∨ start_num = 0 then MainOutcome.exit 1
          else MainOutcome.make_primes_dir_called process_num thread_num range start_num
  | _ => MainOutcome.exit 1

/-- The text is the decimal writing of a positive integer: one or more digits, nothing else,
not all zero. -/
def IsPositiveDecimal (s : List Char) : Prop :=
  s ≠ [] ∧ (∀ c ∈ s, isdigit c = true) ∧ 0 < digitsValue s

/-- The text has the shape `strtoull` converts completely to the non-zero value `v`: white
space, an optional sign, then one or more digits denoting a number from 1 to `2 ^ 64 - 1`;
with a minus sign `v` is the negation modulo `2 ^ 64`. -/
def ConvertsTo (s : List Char) (v : Nat) : Prop :=
  ∃ ws sign ds, s = ws ++ (sign ++ ds) ∧ (∀ c ∈ ws, isspace c = true) ∧
    (sign = [] ∨ sign = ['+'] ∨ sign = ['-']) ∧ ds ≠ [] ∧ (∀ c ∈ ds, isdigit c = true) ∧
    0 < digitsValue ds ∧ digitsValue ds < U64 ∧
    v = if sign = ['-'] then U64 - digitsValue ds else digitsValue ds

/-- What `main` tests after each conversion, as a property of the argument text. -/
def Accepts (s : List Char) (v : Nat) : Prop :=
  (strtoull s).erange = false ∧ (strtoull s).rest = [] ∧ (strtoull s).value = v ∧ v ≠ 0

/-- The successive values of `i` at which the loop of `is_prime` (source lines 58-62)
evaluates its condition `i * i <= n`, in order; same control flow as `is_prime_loop`. -/
def is_prime_loop_trace : Nat → Nat → Nat → List Nat
  | 0, _, _ => []
  | fuel + 1, n, i =>
    i :: (if (i * i) % U64 ≤ n then
      if i = 0 then []
      else if n % i = 0 then []
      else if (i + 2) % U64 = 0 then []
      else if n % ((i + 2) % U64) = 0 then []
      else is_prime_loop_trace fuel n ((i + 6) % U64)
    else [])

/-- The values of `i` at which a call `is_prime(n)` evaluates the loop condition. -/
def is_prime_trace (n : Nat) : List Nat :=
  if n < 2 then []
  else if n = 2 ∨ n = 3 then []
  else if n % 2 = 0 ∨ n % 3 = 0 then []
  else is_prime_loop_trace U64 n 5

/-- The character for a decimal digit `d < 10`. -/
def digitChar (d : Nat) : Char := Char.ofNat (48 + d)

/-- Digits of `n`, most significant first, put in front of `acc`; the first argument bounds
the number of digits produced. -/
def decimalAux : Nat → Nat → List Char → List Char
  | 0, _, acc => acc
  | fuel + 1, n, acc =>
    if n < 10 then digitChar n :: acc
    else decimalAux fuel (n / 10) (digitChar (n % 10) :: acc)

/-- The text the conversion `%llu` (and `PRIu64`) prints for an unsigned 64-bit value: its
decimal digits without sign or leading zeros; such a value has at most 20 digits. -/
def decimal (n : Nat) : List Char := decimalAux 20 n []

/-- The text `snprintf` would produce for the format of `make_primes_file` (source lines
31-32) in an unbounded buffer. -/
def make_primes_file_format (pid tid : Nat) : List Char :=
  String.toList "primes/primes_p" ++ decimal pid ++ String.toList "_t" ++ decimal tid ++
    String.toList ".csv"

/-- The file name `make_primes_file` opens (source lines 30-34): `snprintf` with a buffer of
512 bytes stores at most 511 characters before the terminating zero. -/
def make_primes_file_filename (pid tid : Nat) : List Char :=
  (make_primes_file_format pid tid).take (512 - 1)

/-- The scan as the specification words it: all `n` with `start ≤ n < end` for which
`is_prime n` returns a non-zero value, in increasing order. Every number of the range is
tested, even ones included, and 2 is not treated apart. -/
def naive_scan (start end_ : Nat) : List Nat :=
  (List.range' start (end_ - start)).filter
    (fun n => match is_prime n with
      | some r => r != 0
      | none => false)

/-- The scanning loop of `thread_func` (source lines 94-98) with `count` made explicit: the
result lists every write `found[count++] = n` as the pair (index written, value written), in
order. Same control flow as `thread_func_loop`. -/
def thread_func_loop_writes : Nat → Nat → Nat → Nat → List (Nat × Nat) →
    Option (List (Nat × Nat))
  | 0, _, _, _, _ => none
  | fuel + 1, end_, n, count, writes =>
    if n < end_ then
      match is_prime n with
      | none => none
      | some r =>
        if r ≠ 0 then
          thread_func_loop_writes fuel end_ ((n + 2) % U64) ((count + 1) % U64)
            (writes ++ [(count, n)])
        else thread_func_loop_writes fuel end_ ((n + 2) % U64) count writes
    else some writes

/-- The writes into `found` made by `thread_func` for a range `[start, end)` (source lines
81-98), as pairs (index, value): first the write of 2 when it lies in the range, then the
writes of the loop. -/
def thread_scan_writes (start end_ : Nat) : Option (List (Nat × Nat)) :=
  let count := 0
  let writes : List (Nat × Nat) := if start ≤ 2 ∧ 2 < end_ then [(count, 2)] else []
  let count := if start ≤ 2 ∧ 2 < end_ then (count + 1) % U64 else count
  let first := start
  let first := if first < 3 then 3 else first
  let first := if first % 2 = 0 then (first + 1) % U64 else first
  thread_func_loop_writes U64 end_ first count writes

/-- The values of a list paired with consecutive indices starting at `c`. -/
def indexFrom : Nat → List Nat → List (Nat × Nat)
  | _, [] => []
  | c, a :: t => (c, a) :: indexFrom (c + 1) t

/-! ## Theorems -/

/-! ### Trial division: auxiliary facts -/

theorem is_prime_loop_prime_aux (n s : Nat) (hn : n.Prime) (hnU : n < U64) (hsn : s ≤ n)
    (hs : n < (s * s) % U64) :
    ∀ (k fuel i : Nat), 2 ≤ i → i + 6 * k = s → k < fuel → is_prime_loop fuel n i = some 1 := by
  intro k
  induction k with
  | zero =>
    intro fuel i _ hik hf
    obtain ⟨f, rfl⟩ : ∃ f, fuel = f + 1 := ⟨fuel - 1, by omega⟩
    have : i = s := by omega
    subst this
    simp [is_prime_loop, Nat.not_le.mpr hs]
  | succ k ih =>
    intro fuel i hi hik hf
    obtain ⟨f, rfl⟩ : ∃ f, fuel = f + 1 := ⟨fuel - 1, by omega⟩
    have hU : U64 = 2 ^ 64 := rfl
    have h1 : (i + 2) % U64 = i + 2 := Nat.mod_eq_of_lt (by omega)
    have h2 : (i + 6) % U64 = i + 6 := Nat.mod_eq_of_lt (by omega)
    have hndvd : ∀ d, 2 ≤ d → d < n → n % d ≠ 0 := by
      intro d hd hdn h0
      have hdvd : d ∣ n := Nat.dvd_of_mod_eq_zero h0
      rcases (Nat.dvd_prime hn).mp hdvd with h | h <;> omega
    have h3 : n % i ≠ 0 := hndvd i hi (by omega)
    have h4 : n % (i + 2) ≠ 0 := hndvd (i + 2) (by omega) (by omega)
    have hrec := ih f (i + 6) (by omega) (by omega) (by omega)
    unfold is_prime_loop
    rw [h1, h2, hrec]
    have hi0 : i ≠ 0 := by omega
    simp [hi0, h3, h4]

theorem is_prime_loop_divisor_aux (n s : Nat) (hnU : n < U64) (hs : s * s ≤ n)
    (hdiv : n % s = 0 ∨ n % (s + 2) = 0) :
    ∀ (k fuel i : Nat), 1 ≤ i → i + 6 * k = s → k < fuel → is_prime_loop fuel n i = some 0 := by
  intro k
  induction k with
  | zero =>
    intro fuel i hi hik hf
    obtain ⟨f, rfl⟩ : ∃ f, fuel = f + 1 := ⟨fuel - 1, by omega⟩
    have : i = s := by omega
    subst this
    have hU : U64 = 2 ^ 64 := rfl
    have hle : i * i ≤ n := le_trans (Nat.mul_le_mul (by omega) (by omega)) hs
    have h0 : (i * i) % U64 = i * i := Nat.mod_eq_of_lt (by omega)
    have hlt : i + 2 < U64 := by
      by_contra hc
      have : 2 ^ 32 ≤ i := by omega
      have := Nat.mul_le_mul this this
      omega
    have h1 : (i + 2) % U64 = i + 2 := Nat.mod_eq_of_lt hlt
    unfold is_prime_loop
    rw [h0, h1]
    have hi0 : i ≠ 0 := by omega
    rcases hdiv with h | h
    · simp [hle, hi0, h]
    · by_cases h' : n % i = 0 <;> simp [hle, hi0, h, h']
  | succ k ih =>
    intro fuel i hi hik hf
    obtain ⟨f, rfl⟩ : ∃ f, fuel = f + 1 := ⟨fuel - 1, by omega⟩
    have hU : U64 = 2 ^ 64 := rfl
    have his : i + 6 ≤ s := by omega
    have hle : i * i ≤ n := le_trans (Nat.mul_le_mul (by omega) (by omega)) hs
    have h0 : (i * i) % U64 = i * i := Nat.mod_eq_of_lt (by omega)
    have hlt : s + 2 < U64 := by
      by_contra hc
      have : 2 ^ 32 ≤ s := by omega
      have := Nat.mul_le_mul this this
      omega
    have h1 : (i + 2) % U64 = i + 2 := Nat.mod_eq_of_lt (by omega)
    have h2 : (i + 6) % U64 = i + 6 := Nat.mod_eq_of_lt (by omega)
    have hrec := ih f (i + 6) (by omega) (by omega) (by omega)
    unfold is_prime_loop
    rw [h0, h1, h2, hrec]
    have hi0 : i ≠ 0 := by omega
    by_cases h3 : n % i = 0 <;> by_cases h4 : n % (i + 2) = 0 <;> simp [hle, hi0, h3, h4]

theorem wrapStop_sq : (wrapStop * wrapStop) % U64 = U64 - 7 := by decide

theorem not_prime_top (n : Nat) (hn : n < U64) (h : U64 - 7 ≤ n) (h2 : n % 2 ≠ 0)
    (h3 : n % 3 ≠ 0) : ¬ n.Prime := by
  have hU : U64 = 2 ^ 64 := rfl
  have hcases : n = 18446744073709551613 ∨ n = 18446744073709551611 := by omega
  rcases hcases with rfl | rfl
  · intro hp
    have hd : (13 : Nat) ∣ 18446744073709551613 := by decide
    rcases (Nat.dvd_prime hp).mp hd with h | h <;> omega
  · intro hp
    have hd : (11 : Nat) ∣ 18446744073709551611 := by decide
    rcases (Nat.dvd_prime hp).mp hd with h | h <;> omega

/-- Every prime that passes the divisibility tests by 2 and 3 has a candidate `s = 6 k + 5`
not above it at which the (possibly wrapped) square exceeds it. -/
theorem exists_stop (n : Nat) (hn : n.Prime) (hnU : n < U64) (h5 : 5 ≤ n) :
    ∃ s k, 5 + 6 * k = s ∧ s ≤ n ∧ n < (s * s) % U64 := by
  have hU : U64 = 2 ^ 64 := rfl
  by_cases hB : n < (2 ^ 32 - 5) * (2 ^ 32 - 5)
  · have hq : Nat.sqrt n < 2 ^ 32 - 5 := Nat.sqrt_lt.mpr hB
    have hq1 : Nat.sqrt n * Nat.sqrt n ≤ n := Nat.sqrt_le n
    have hq2 : n < (Nat.sqrt n + 1) * (Nat.sqrt n + 1) := Nat.lt_succ_sqrt n
    generalize Nat.sqrt n = q at hq hq1 hq2
    refine ⟨5 + 6 * ((q + 1) / 6), (q + 1) / 6, rfl, ?_, ?_⟩
    · have hq3 : 2 ≤ q := by
        by_contra hc
        have : q + 1 ≤ 2 := by omega
        have := Nat.mul_le_mul this this
        omega
      rcases Nat.lt_or_ge q 3 with h | h
      · have : q = 2 := by omega
        subst this
        omega
      · have : 3 * q ≤ q * q := Nat.mul_le_mul h le_rfl
        omega
    · have hs1 : q + 1 ≤ 5 + 6 * ((q + 1) / 6) := by omega
      have hs2 : 5 + 6 * ((q + 1) / 6) ≤ 2 ^ 32 - 5 := by omega
      have hlt : (5 + 6 * ((q + 1) / 6)) * (5 + 6 * ((q + 1) / 6)) < U64 :=
        lt_of_le_of_lt (Nat.mul_le_mul hs2 hs2) (by rw [hU]; norm_num)
      rw [Nat.mod_eq_of_lt hlt]
      exact lt_of_lt_of_le hq2 (Nat.mul_le_mul hs1 hs1)
  · have h2 : n % 2 ≠ 0 := by
      intro h
      rcases (Nat.dvd_prime hn).mp (Nat.dvd_of_mod_eq_zero h) with h | h <;> omega
    have h3 : n % 3 ≠ 0 := by
      intro h
      rcases (Nat.dvd_prime hn).mp (Nat.dvd_of_mod_eq_zero h) with h | h <;> omega
    have htop : n < U64 - 7 := by
      by_contra hc
      exact not_prime_top n hnU (by omega) h2 h3 hn
    refine ⟨wrapStop, 308718563876588232, by decide, ?_, ?_⟩
    · have : wrapStop = 1852311383259529397 := rfl
      norm_num at hB
      omega
    · rw [wrapStop_sq]; exact htop

/-- A number that is neither prime nor divisible by 2 or 3 has a divisor `s` or `s + 2` with
`s = 6 k + 5` and `s * s` not above it. -/
theorem exists_divisor (n : Nat) (hn : ¬ n.Prime) (h5 : 5 ≤ n) (h2 : n % 2 ≠ 0)
    (h3 : n % 3 ≠ 0) :
    ∃ s k, 5 + 6 * k = s ∧ s * s ≤ n ∧ (n % s = 0 ∨ n % (s + 2) = 0) := by
  have hp : (Nat.minFac n).Prime := Nat.minFac_prime (by omega)
  have hdvd : Nat.minFac n ∣ n := Nat.minFac_dvd n
  have hsq : Nat.minFac n ^ 2 ≤ n := Nat.minFac_sq_le_self (by omega) hn
  generalize Nat.minFac n = p at hp hdvd hsq
  rw [pow_two] at hsq
  have hp2 : p % 2 ≠ 0 := by
    intro h
    have h' : 2 ∣ p := Nat.dvd_of_mod_eq_zero h
    have := Nat.mod_eq_zero_of_dvd (dvd_trans h' hdvd)
    omega
  have hp3 : p % 3 ≠ 0 := by
    intro h
    have h' : 3 ∣ p := Nat.dvd_of_mod_eq_zero h
    have := Nat.mod_eq_zero_of_dvd (dvd_trans h' hdvd)
    omega
  have hp1 : 2 ≤ p := hp.two_le
  have hmod : n % p = 0 := Nat.mod_eq_zero_of_dvd hdvd
  rcases (show p % 6 = 5 ∨ p % 6 = 1 by omega) with h | h
  · exact ⟨p, (p - 5) / 6, by omega, hsq, Or.inl hmod⟩
  · have h7 : 7 ≤ p := by omega
    refine ⟨p - 2, (p - 7) / 6, by omega, ?_, Or.inr ?_⟩
    · exact le_trans (Nat.mul_le_mul (Nat.sub_le p 2) (Nat.sub_le p 2)) hsq
    · have : p - 2 + 2 = p := by omega
      rw [this]; exact hmod

/-- Functional description of `is_prime` for every iteration bound that is at least `n`. -/
theorem is_prime_fuel_spec (fuel n : Nat) (hnU : n < U64) (hf : n ≤ fuel) :
    is_prime_fuel fuel n = some (if n.Prime then 1 else 0) := by
  unfold is_prime_fuel
  by_cases h1 : n < 2
  · have : ¬ n.Prime := fun hp => by have := hp.two_le; omega
    simp [h1, this]
  by_cases h23 : n = 2 ∨ n = 3
  · have : n.Prime := by
      rcases h23 with rfl | rfl
      · exact Nat.prime_two
      · exact Nat.prime_three
    simp [h1, h23, this]
  by_cases hdiv : n % 2 = 0 ∨ n % 3 = 0
  · have : ¬ n.Prime := by
      intro hp
      rcases hdiv with h | h
      · rcases (Nat.dvd_prime hp).mp (Nat.dvd_of_mod_eq_zero h) with h | h <;> omega
      · rcases (Nat.dvd_prime hp).mp (Nat.dvd_of_mod_eq_zero h) with h | h <;> omega
    simp [h1, h23, hdiv, this]
  rw [if_neg h1, if_neg h23, if_neg hdiv]
  have h5 : 5 ≤ n := by omega
  by_cases hp : n.Prime
  · obtain ⟨s, k, hk, hsn, hs⟩ := exists_stop n hp hnU h5
    rw [if_pos hp]
    exact is_prime_loop_prime_aux n s hp hnU hsn hs k fuel 5 (by omega) hk (by omega)
  · obtain ⟨s, k, hk, hsq, hd⟩ := exists_divisor n hp h5 (by omega) (by omega)
    rw [if_neg hp]
    have : s ≤ s * s := Nat.le_mul_self s
    exact is_prime_loop_divisor_aux n s hnU hsq hd k fuel 5 (by omega) hk (by omega)

theorem is_prime_spec (n : Nat) (hnU : n < U64) :
    is_prime n = some (if n.Prime then 1 else 0) :=
  is_prime_fuel_spec U64 n hnU (le_of_lt hnU)

theorem powMod_eq (p : Nat) : ∀ (f a e : Nat), e < 2 ^ f → powMod p f a e = a ^ e % p := by
  intro f
  induction f with
  | zero =>
    intro a e he
    have : e = 0 := by simpa using he
    subst this
    simp [powMod]
  | succ f ih =>
    intro a e he
    unfold powMod
    by_cases h0 : e = 0
    · subst h0; simp
    have hlt : e / 2 < 2 ^ f := by
      rw [pow_succ] at he
      omega
    have hsq : (a * a % p) ^ (e / 2) % p = (a * a) ^ (e / 2) % p := by
      rw [Nat.pow_mod, Nat.mod_mod, ← Nat.pow_mod]
    rw [if_neg h0, ih _ _ hlt, hsq]
    by_cases h1 : e % 2 = 1
    · rw [if_pos h1]
      have he2 : e = 2 * (e / 2) + 1 := by omega
      conv_rhs => rw [he2, pow_succ, pow_mul, pow_two, Nat.mul_comm]
      rw [Nat.mul_mod a (((a * a) ^ (e / 2)) % p), Nat.mod_mod, ← Nat.mul_mod]
    · rw [if_neg h1]
      have he2 : e = 2 * (e / 2) := by omega
      conv_rhs => rw [he2, pow_mul, pow_two]

theorem zmod_pow_eq_one_iff (p a e : Nat) (hp : 1 < p) (he : e < 2 ^ 64) :
    ((a : ZMod p) ^ e = 1) ↔ powMod p 64 a e = 1 := by
  rw [powMod_eq p 64 a e he]
  have h1 : ((a : ZMod p) ^ e = 1) ↔ (((a ^ e : ℕ) : ZMod p) = ((1 : ℕ) : ZMod p)) := by
    push_cast; rfl
  rw [h1, ZMod.natCast_eq_natCast_iff']
  rw [Nat.mod_eq_of_lt hp]

theorem bigPrime_pred_factors :
    bigPrime - 1 = 2 ^ 2 * 3 * 5 * 13 * 41 * 137 * 887 * 1291 * 1669 * 2203 := by decide

theorem bigPrime_prime : bigPrime.Prime := by
  have hlt : bigPrime - 1 < 2 ^ 64 := by decide
  have h1 : 1 < bigPrime := by decide
  apply lucas_primality bigPrime ((6 : ℕ) : ZMod bigPrime)
  · rw [zmod_pow_eq_one_iff bigPrime 6 _ h1 hlt]
    rfl
  · intro q hq hdvd
    rw [bigPrime_pred_factors] at hdvd
    have hq' : q = 2 ∨ q = 3 ∨ q = 5 ∨ q = 13 ∨ q = 41 ∨ q = 137 ∨ q = 887 ∨ q = 1291 ∨
        q = 1669 ∨ q = 2203 := by
      have key : ∀ {a b : ℕ}, q ∣ a * b → q ∣ a ∨ q ∣ b := fun h => (Nat.Prime.dvd_mul hq).mp h
      have hpr : ∀ {r : ℕ}, r.Prime → q ∣ r → q = r := fun hr h =>
        (Nat.prime_dvd_prime_iff_eq hq hr).mp h
      rcases key hdvd with h | h
      rcases key h with h | h
      rcases key h with h | h
      rcases key h with h | h
      rcases key h with h | h
      rcases key h with h | h
      rcases key h with h | h
      rcases key h with h | h
      rcases key h with h | h
      · exact Or.inl (hpr Nat.prime_two (Nat.Prime.dvd_of_dvd_pow hq h))
      · exact Or.inr (Or.inl (hpr (by norm_num) h))
      · exact Or.inr (Or.inr (Or.inl (hpr (by norm_num) h)))
      · exact Or.inr (Or.inr (Or.inr (Or.inl (hpr (by norm_num) h))))
      · exact Or.inr (Or.inr (Or.inr (Or.inr (Or.inl (hpr (by norm_num) h)))))
      · exact Or.inr (Or.inr (Or.inr (Or.inr (Or.inr (Or.inl (hpr (by norm_num) h))))))
      · exact Or.inr (Or.inr (Or.inr (Or.inr (Or.inr (Or.inr (Or.inl (hpr (by norm_num) h)))))))
      · exact Or.inr (Or.inr (Or.inr (Or.inr (Or.inr (Or.inr (Or.inr (Or.inl
          (hpr (by norm_num) h))))))))
      · exact Or.inr (Or.inr (Or.inr (Or.inr (Or.inr (Or.inr (Or.inr (Or.inr (Or.inl
          (hpr (by norm_num) h)))))))))
      · exact Or.inr (Or.inr (Or.inr (Or.inr (Or.inr (Or.inr (Or.inr (Or.inr (Or.inr
          (hpr (by norm_num) h)))))))))
    have hne : ∀ e : ℕ, e < 2 ^ 64 → powMod bigPrime 64 6 e ≠ 1 →
        ((6 : ℕ) : ZMod bigPrime) ^ e ≠ 1 := fun e he hpm h =>
      hpm ((zmod_pow_eq_one_iff bigPrime 6 e h1 he).mp h)
    rcases hq' with rfl | rfl | rfl | rfl | rfl | rfl | rfl | rfl | rfl | rfl <;>
      exact hne _ (by decide) (by decide)

theorem mem_oddPrimesFrom (n e p : Nat) :
    p ∈ oddPrimesFrom n e ↔ n ≤ p ∧ p < e ∧ p % 2 = 1 ∧ p.Prime := by
  unfold oddPrimesFrom
  rw [List.mem_filter, List.mem_range'_1]
  simp only [decide_eq_true_eq]
  constructor
  · rintro ⟨⟨h1, h2⟩, h3, h4⟩
    exact ⟨h1, by omega, h3, h4⟩
  · rintro ⟨h1, h2, h3, h4⟩
    exact ⟨⟨h1, by omega⟩, h3, h4⟩

theorem prime_odd_of_ne_two (p : Nat) (hp : p.Prime) (h2 : p ≠ 2) : p % 2 = 1 ∧ 3 ≤ p := by
  have h := hp.two_le
  rcases Nat.Prime.eq_two_or_odd hp with h' | h'
  · exact absurd h' h2
  · omega

theorem mem_scanResult (start e p : Nat) :
    p ∈ scanResult start e ↔ p.Prime ∧ start ≤ p ∧ p < e := by
  unfold scanResult
  rw [List.mem_append, mem_oddPrimesFrom]
  constructor
  · rintro (h | ⟨h1, h2, h3, h4⟩)
    · by_cases hc : start ≤ 2 ∧ 2 < e
      · rw [if_pos hc] at h
        have : p = 2 := by simpa using h
        subst this
        exact ⟨Nat.prime_two, hc.1, hc.2⟩
      · rw [if_neg hc] at h
        simp at h
    · refine ⟨h4, ?_, h2⟩
      split_ifs at h1 <;> omega
  · rintro ⟨hp, h1, h2⟩
    by_cases hp2 : p = 2
    · subst hp2
      left
      rw [if_pos ⟨h1, h2⟩]
      simp
    · right
      obtain ⟨hodd, h3⟩ := prime_odd_of_ne_two p hp hp2
      refine ⟨?_, h2, hodd, hp⟩
      split_ifs <;> omega

theorem scanResult_sorted (start e : Nat) : (scanResult start e).Pairwise (· < ·) := by
  unfold scanResult
  rw [List.pairwise_append]
  refine ⟨?_, ?_, ?_⟩
  · split_ifs <;> simp
  · unfold oddPrimesFrom
    exact List.Pairwise.filter _ (List.pairwise_lt_range' _ _)
  · intro a ha b hb
    rw [mem_oddPrimesFrom] at hb
    have ha2 : a = 2 := by
      split_ifs at ha
      · simpa using ha
      · simp at ha
    subst ha2
    obtain ⟨h1, -, -, -⟩ := hb
    split_ifs at h1 <;> omega

theorem thread_range_exact (G W R S g w : Nat) (hR : 1 ≤ R)
    (hsum : S + G * W * R ≤ 2 ^ 64 - 1) (hg : g < G) (hw : w < W) :
    thread_range g w W R S = (S + (g * W + w) * R, S + (g * W + w) * R + R) := by
  have hU : U64 = 2 ^ 64 := rfl
  have h1 : g * W + w + 1 ≤ G * W := by
    have : (g + 1) * W ≤ G * W := Nat.mul_le_mul_right W hg
    rw [Nat.add_mul] at this
    omega
  have h2 : (g * W + w + 1) * R ≤ G * W * R := Nat.mul_le_mul_right R h1
  have h3 : (g * W + w) * R + R ≤ G * W * R := by
    rw [Nat.add_mul, Nat.one_mul] at h2
    exact h2
  have h4 : g * W + w ≤ (g * W + w) * R := Nat.le_mul_of_pos_right _ hR
  have e1 : (g * W) % U64 = g * W := Nat.mod_eq_of_lt (by omega)
  have e2 : (g * W + w) % U64 = g * W + w := Nat.mod_eq_of_lt (by omega)
  have e3 : ((g * W + w) * R) % U64 = (g * W + w) * R := Nat.mod_eq_of_lt (by omega)
  have e4 : (S + (g * W + w) * R) % U64 = S + (g * W + w) * R := Nat.mod_eq_of_lt (by omega)
  have e5 : (S + (g * W + w) * R + R) % U64 = S + (g * W + w) * R + R :=
    Nat.mod_eq_of_lt (by omega)
  simp only [thread_range, e1, e2, e3, e4, e5]

theorem thread_range_lt (pid tid thread_num range start_num : Nat) :
    (thread_range pid tid thread_num range start_num).1 < U64 ∧
    (thread_range pid tid thread_num range start_num).2 < U64 := by
  have hU : 0 < U64 := by decide
  exact ⟨Nat.mod_lt _ hU, Nat.mod_lt _ hU⟩

theorem dropWhile_append_of_all {p : Char → Bool} :
    ∀ (l r : List Char), (∀ c ∈ l, p c = true) → (∀ c, r.head? = some c → p c = false) →
      (l ++ r).dropWhile p = r := by
  intro l
  induction l with
  | nil =>
    intro r _ hr
    cases r with
    | nil => rfl
    | cons c t =>
      have := hr c rfl
      simp [List.dropWhile, this]
  | cons a l ih =>
    intro r hl hr
    have ha : p a = true := hl a (List.mem_cons_self _ _)
    simp only [List.cons_append, List.dropWhile, ha]
    exact ih r (fun c hc => hl c (List.mem_cons_of_mem _ hc)) hr

theorem takeWhile_of_all {p : Char → Bool} :
    ∀ (l : List Char), (∀ c ∈ l, p c = true) → l.takeWhile p = l ∧ l.dropWhile p = [] := by
  intro l
  induction l with
  | nil => intro _; exact ⟨rfl, rfl⟩
  | cons a l ih =>
    intro hl
    have ha : p a = true := hl a (List.mem_cons_self _ _)
    obtain ⟨h1, h2⟩ := ih (fun c hc => hl c (List.mem_cons_of_mem _ hc))
    simp [List.takeWhile, List.dropWhile, ha, h1, h2]

theorem all_of_dropWhile_nil {p : Char → Bool} :
    ∀ (l : List Char), l.dropWhile p = [] → ∀ c ∈ l, p c = true := by
  intro l
  induction l with
  | nil => intro _ c hc; simp at hc
  | cons a l ih =>
    intro h c hc
    by_cases ha : p a = true
    · simp only [List.dropWhile, ha] at h
      rcases List.mem_cons.mp hc with rfl | hc
      · exact ha
      · exact ih h c hc
    · have ha' : p a = false := by simpa using ha
      simp [List.dropWhile, ha'] at h

theorem head_dropWhile_not {p : Char → Bool} :
    ∀ (l : List Char) (c : Char), (l.dropWhile p).head? = some c → p c = false := by
  intro l
  induction l with
  | nil => intro c h; simp at h
  | cons a l ih =>
    intro c h
    by_cases ha : p a = true
    · simp only [List.dropWhile, ha] at h
      exact ih c h
    · have ha' : p a = false := by simpa using ha
      simp only [List.dropWhile, ha', List.head?_cons, Option.some.injEq] at h
      rw [← h]; exact ha'

theorem isdigit_not_sign (c : Char) (h : isdigit c = true) :
    c ≠ '+' ∧ c ≠ '-' ∧ isspace c = false := by
  have h' : 48 ≤ c.toNat ∧ c.toNat ≤ 57 := by simpa [isdigit] using h
  refine ⟨?_, ?_, ?_⟩
  · rintro rfl
    have : ('+' : Char).toNat = 43 := by decide
    omega
  · rintro rfl
    have : ('-' : Char).toNat = 45 := by decide
    omega
  · simp only [isspace, Bool.or_eq_false_iff, Bool.and_eq_false_iff, decide_eq_false_iff_not]
    omega

theorem accepts_iff_convertsTo (s : List Char) (v : Nat) : Accepts s v ↔ ConvertsTo s v := by
  have hU : U64 = 2 ^ 64 := rfl
  constructor
  · rintro ⟨h1, h2, h3, h4⟩
    unfold strtoull at h1 h2 h3
    simp only [] at h1 h2 h3
    have hs : s = s.takeWhile isspace ++ s.dropWhile isspace :=
      (List.takeWhile_append_dropWhile isspace s).symm
    have hws : ∀ c ∈ s.takeWhile isspace, isspace c = true := fun c hc =>
      List.mem_takeWhile_imp hc
    generalize s.dropWhile isspace = body at h1 h2 h3 hs
    generalize s.takeWhile isspace = ws at hs hws
    generalize hb' : (if body.head? = some '+' ∨ body.head? = some '-' then body.tail
      else body) = body' at h1 h2 h3
    by_cases hds : body'.takeWhile isdigit = []
    · rw [if_pos hds] at h3
      exact absurd h3.symm h4
    rw [if_neg hds] at h1 h2 h3
    by_cases hov : U64 ≤ digitsValue (body'.takeWhile isdigit)
    · rw [if_pos hov] at h1
      simp at h1
    rw [if_neg hov] at h1 h2 h3
    simp only [] at h2 h3
    have hall : ∀ c ∈ body', isdigit c = true := all_of_dropWhile_nil body' h2
    have htw : body'.takeWhile isdigit = body' := (takeWhile_of_all body' hall).1
    rw [htw] at hds hov h3
    have hsign : ∃ sign, body = sign ++ body' ∧ (sign = [] ∨ sign = ['+'] ∨ sign = ['-']) ∧
        (body.head? = some '-' ↔ sign = ['-']) := by
      cases body with
      | nil =>
        simp at hb'
        subst hb'
        exact ⟨[], rfl, Or.inl rfl, by simp⟩
      | cons c t =>
        by_cases hc : c = '+'
        · subst hc
          simp at hb'
          subst hb'
          refine ⟨['+'], rfl, Or.inr (Or.inl rfl), ?_⟩
          simp
        by_cases hc' : c = '-'
        · subst hc'
          simp at hb'
          subst hb'
          exact ⟨['-'], rfl, Or.inr (Or.inr rfl), by simp⟩
        · simp [hc, hc'] at hb'
          subst hb'
          exact ⟨[], rfl, Or.inl rfl, by simp [hc']⟩
    obtain ⟨sign, hbody, hsg, hneg⟩ := hsign
    have hv0 : 0 < digitsValue body' := by
      by_contra hc
      have hz : digitsValue body' = 0 := by omega
      rw [hz] at h3
      simp [hU] at h3
      exact h4 h3.symm
    refine ⟨ws, sign, body', by rw [hs, hbody], hws, hsg, hds, hall, hv0, by omega, ?_⟩
    rw [← h3]
    by_cases hm : sign = ['-']
    · have : body.head? = some '-' := hneg.mpr hm
      simp only [this, hm, decide_True, if_true]
      exact Nat.mod_eq_of_lt (by omega)
    · have : ¬ body.head? = some '-' := fun h => hm (hneg.mp h)
      simp [this, hm]
  · rintro ⟨ws, sign, ds, rfl, hws, hsg, hds, hall, hv0, hvU, rfl⟩
    obtain ⟨c0, t0, hc0⟩ : ∃ c t, ds = c :: t := by
      cases ds with
      | nil => exact absurd rfl hds
      | cons c t => exact ⟨c, t, rfl⟩
    have hc0d : isdigit c0 = true := hall c0 (by rw [hc0]; exact List.mem_cons_self _ _)
    obtain ⟨hne1, hne2, hnsp⟩ := isdigit_not_sign c0 hc0d
    have hdrop : (ws ++ (sign ++ ds)).dropWhile isspace = sign ++ ds := by
      apply dropWhile_append_of_all _ _ hws
      intro c hc
      rcases hsg with rfl | rfl | rfl
      · rw [hc0] at hc
        simp at hc
        rw [← hc]; exact hnsp
      · simp at hc
        rw [← hc]; decide
      · simp at hc
        rw [← hc]; decide
    have hbody' : (if (sign ++ ds).head? = some '+' ∨ (sign ++ ds).head? = some '-'
        then (sign ++ ds).tail else sign ++ ds) = ds := by
      rcases hsg with rfl | rfl | rfl
      · rw [hc0]
        simp [hne1, hne2]
      · simp
      · simp
    have hneg : ((sign ++ ds).head? = some '-') ↔ sign = ['-'] := by
      rcases hsg with rfl | rfl | rfl
      · rw [hc0]
        simp [hne2]
      · simp
      · simp
    obtain ⟨htw, hdw⟩ := takeWhile_of_all ds hall
    have hnov : ¬ U64 ≤ digitsValue ds := by omega
    unfold Accepts strtoull
    simp only [hdrop, hbody', htw, hdw, if_neg hds, if_neg hnov]
    refine ⟨trivial, trivial, ?_, ?_⟩
    · by_cases hm : sign = ['-']
      · have := hneg.mpr hm
        simp only [this, hm, decide_True, if_true]
        exact Nat.mod_eq_of_lt (by omega)
      · have : ¬ (sign ++ ds).head? = some '-' := fun h => hm (hneg.mp h)
        have hd : decide ((sign ++ ds).head? = some '-') = false := decide_eq_false this
        rw [hd, if_neg hm]
        simp only [Bool.false_eq_true, if_false]
    · split_ifs <;> omega

theorem main_reaches_iff (argv : List (List Char)) (G W R S : Nat) :
    main argv = MainOutcome.make_primes_dir_called G W R S ↔
      ∃ prog a1 a2 a3 a4, argv = [prog, a1, a2, a3, a4] ∧
        Accepts a1 G ∧ Accepts a2 W ∧ Accepts a3 R ∧ Accepts a4 S := by
  have key : ∀ (prog a1 a2 a3 a4 : List Char),
      main [prog, a1, a2, a3, a4] = MainOutcome.make_primes_dir_called G W R S ↔
        Accepts a1 G ∧ Accepts a2 W ∧ Accepts a3 R ∧ Accepts a4 S := by
    intro prog a1 a2 a3 a4
    unfold Accepts
    simp only [main]
    generalize strtoull a1 = r1
    generalize strtoull a2 = r2
    generalize strtoull a3 = r3
    generalize strtoull a4 = r4
    obtain ⟨v1, t1, e1⟩ := r1
    obtain ⟨v2, t2, e2⟩ := r2
    obtain ⟨v3, t3, e3⟩ := r3
    obtain ⟨v4, t4, e4⟩ := r4
    simp only []
    cases e1 <;> cases e2 <;> cases e3 <;> cases e4 <;> simp [ERANGE]
    split_ifs with h1 h2 h3 h4
    · constructor
      · intro h; cases h
      · rintro ⟨⟨ha, hb, hc⟩, -⟩
        rcases h1 with h1 | h1
        · exact absurd ha h1
        · exact absurd (hb ▸ h1) hc
    · constructor
      · intro h; cases h
      · rintro ⟨-, ⟨ha, hb, hc⟩, -⟩
        rcases h2 with h2 | h2
        · exact absurd ha h2
        · exact absurd (hb ▸ h2) hc
    · constructor
      · intro h; cases h
      · rintro ⟨-, -, ⟨ha, hb, hc⟩, -⟩
        rcases h3 with h3 | h3
        · exact absurd ha h3
        · exact absurd (hb ▸ h3) hc
    · constructor
      · intro h; cases h
      · rintro ⟨-, -, -, ha, hb, hc⟩
        rcases h4 with h4 | h4
        · exact absurd ha h4
        · exact absurd (hb ▸ h4) hc
    · push_neg at h1 h2 h3 h4
      constructor
      · intro h
        injection h with g1 g2 g3 g4
        subst g1 g2 g3 g4
        exact ⟨⟨h1.1, rfl, h1.2⟩, ⟨h2.1, rfl, h2.2⟩, ⟨h3.1, rfl, h3.2⟩, h4.1, rfl, h4.2⟩
      · rintro ⟨⟨-, rfl, -⟩, ⟨-, rfl, -⟩, ⟨-, rfl, -⟩, -, rfl, -⟩
        rfl
  constructor
  · intro h
    match argv, h with
    | [prog, a1, a2, a3, a4], h => exact ⟨prog, a1, a2, a3, a4, rfl, (key _ _ _ _ _).mp h⟩
    | [], h => simp [main] at h
    | [_], h => simp [main] at h
    | [_, _], h => simp [main] at h
    | [_, _, _], h => simp [main] at h
    | [_, _, _, _], h => simp [main] at h
    | _ :: _ :: _ :: _ :: _ :: _ :: _, h => simp [main] at h
  · rintro ⟨prog, a1, a2, a3, a4, rfl, h⟩
    exact (key _ _ _ _ _).mpr h

theorem is_prime_loop_trace_mem (n j : Nat) (hn : n.Prime) (hnU : n < U64) (hjn : j ≤ n)
    (hj : (j - 6) * (j - 6) ≤ n) :
    ∀ (k fuel i : Nat), 2 ≤ i → i + 6 * k = j → k < fuel →
      j ∈ is_prime_loop_trace fuel n i := by
  have hU : U64 = 2 ^ 64 := rfl
  intro k
  induction k with
  | zero =>
    intro fuel i _ hik hf
    obtain ⟨f, rfl⟩ : ∃ f, fuel = f + 1 := ⟨fuel - 1, by omega⟩
    have : i = j := by omega
    subst this
    unfold is_prime_loop_trace
    exact List.mem_cons_self _ _
  | succ k ih =>
    intro fuel i hi hik hf
    obtain ⟨f, rfl⟩ : ∃ f, fuel = f + 1 := ⟨fuel - 1, by omega⟩
    have hle : i * i ≤ n := le_trans (Nat.mul_le_mul (by omega) (by omega)) hj
    have h0 : (i * i) % U64 = i * i := Nat.mod_eq_of_lt (by omega)
    have h1 : (i + 2) % U64 = i + 2 := Nat.mod_eq_of_lt (by omega)
    have h2 : (i + 6) % U64 = i + 6 := Nat.mod_eq_of_lt (by omega)
    have hndvd : ∀ d, 2 ≤ d → d < n → n % d ≠ 0 := by
      intro d hd hdn hd0
      rcases (Nat.dvd_prime hn).mp (Nat.dvd_of_mod_eq_zero hd0) with h | h <;> omega
    have h3 : n % i ≠ 0 := hndvd i hi (by omega)
    have h4 : n % (i + 2) ≠ 0 := hndvd (i + 2) (by omega) (by omega)
    have hrec := ih f (i + 6) (by omega) (by omega) (by omega)
    have hi0 : i ≠ 0 := by omega
    have hi2 : i + 2 ≠ 0 := by omega
    unfold is_prime_loop_trace
    rw [h0, h1, h2, if_pos hle, if_neg hi0, if_neg h3, if_neg hi2, if_neg h4]
    exact List.mem_cons_of_mem _ hrec

theorem digitChar_val :
    ∀ d, d < 10 → (digitChar d).toNat - 48 = d ∧ isdigit (digitChar d) = true := by
  decide

theorem digitsValue_foldl_decimalAux :
    ∀ (f n : Nat) (acc : List Char), n < 10 ^ f →
      (decimalAux f n acc).foldl (fun a c => 10 * a + (c.toNat - 48)) 0 =
        acc.foldl (fun a c => 10 * a + (c.toNat - 48)) n := by
  intro f
  induction f with
  | zero =>
    intro n acc hn
    have : n = 0 := by simpa using hn
    subst this
    rfl
  | succ f ih =>
    intro n acc hn
    unfold decimalAux
    by_cases h : n < 10
    · rw [if_pos h]
      simp only [List.foldl_cons, Nat.mul_zero, Nat.zero_add]
      rw [(digitChar_val n h).1]
    · rw [if_neg h]
      have hlt : n / 10 < 10 ^ f := by
        rw [pow_succ] at hn
        omega
      rw [ih (n / 10) _ hlt]
      simp only [List.foldl_cons]
      rw [(digitChar_val (n % 10) (Nat.mod_lt n (by decide))).1]
      have : 10 * (n / 10) + n % 10 = n := Nat.div_add_mod n 10
      rw [this]

theorem digitsValue_decimal (n : Nat) (hn : n < U64) : digitsValue (decimal n) = n := by
  have h : n < 10 ^ 20 := lt_trans hn (by decide)
  exact digitsValue_foldl_decimalAux 20 n [] h

theorem decimalAux_digits :
    ∀ (f n : Nat) (acc : List Char), (∀ c ∈ acc, isdigit c = true) →
      (∀ c ∈ decimalAux f n acc, isdigit c = true) ∧
      (decimalAux f n acc).length ≤ f + acc.length := by
  intro f
  induction f with
  | zero =>
    intro n acc hacc
    exact ⟨hacc, by simp [decimalAux]⟩
  | succ f ih =>
    intro n acc hacc
    unfold decimalAux
    by_cases h : n < 10
    · rw [if_pos h]
      refine ⟨?_, by simp; omega⟩
      intro c hc
      rcases List.mem_cons.mp hc with rfl | hc
      · exact (digitChar_val n h).2
      · exact hacc c hc
    · rw [if_neg h]
      have hd := (digitChar_val (n % 10) (Nat.mod_lt n (by decide))).2
      have hacc' : ∀ c ∈ digitChar (n % 10) :: acc, isdigit c = true := by
        intro c hc
        rcases List.mem_cons.mp hc with rfl | hc
        · exact hd
        · exact hacc c hc
      obtain ⟨h1, h2⟩ := ih (n / 10) _ hacc'
      refine ⟨h1, ?_⟩
      simp only [List.length_cons] at h2
      omega

theorem decimal_digits (n : Nat) :
    (∀ c ∈ decimal n, isdigit c = true) ∧ (decimal n).length ≤ 20 := by
  have := decimalAux_digits 20 n [] (by simp)
  simpa [decimal] using this

theorem append_sep_inj (sep : Char) :
    ∀ (l l' r r' : List Char), (∀ c ∈ l, c ≠ sep) → (∀ c ∈ l', c ≠ sep) →
      l ++ sep :: r = l' ++ sep :: r' → l = l' ∧ r = r' := by
  intro l
  induction l with
  | nil =>
    intro l' r r' _ hl' h
    cases l' with
    | nil => simpa using h
    | cons a t =>
      simp only [List.nil_append, List.cons_append, List.cons.injEq] at h
      exact absurd h.1.symm (hl' a (List.mem_cons_self _ _))
  | cons a t ih =>
    intro l' r r' hl hl' h
    cases l' with
    | nil =>
      simp only [List.nil_append, List.cons_append, List.cons.injEq] at h
      exact absurd h.1 (hl a (List.mem_cons_self _ _))
    | cons b t' =>
      simp only [List.cons_append, List.cons.injEq] at h
      obtain ⟨h1, h2⟩ := ih t' r r' (fun c hc => hl c (List.mem_cons_of_mem _ hc))
        (fun c hc => hl' c (List.mem_cons_of_mem _ hc)) h.2
      exact ⟨by rw [h.1, h1], h2⟩

theorem isdigit_ne_underscore (c : Char) (h : isdigit c = true) : c ≠ '_' := by
  rintro rfl
  revert h
  decide

theorem make_primes_file_format_length (pid tid : Nat) :
    (make_primes_file_format pid tid).length ≤ 61 := by
  have h1 := (decimal_digits pid).2
  have h2 := (decimal_digits tid).2
  unfold make_primes_file_format
  simp only [List.length_append]
  have e1 : (String.toList "primes/primes_p").length = 15 := by decide
  have e2 : (String.toList "_t").length = 2 := by decide
  have e3 : (String.toList ".csv").length = 4 := by decide
  omega

theorem make_primes_file_filename_eq_text (pid tid : Nat) :
    make_primes_file_filename pid tid = make_primes_file_format pid tid := by
  unfold make_primes_file_filename
  apply List.take_of_length_le
  have := make_primes_file_format_length pid tid
  omega

theorem make_primes_file_format_inj (g w g' w' : Nat) (hg : g < U64) (hw : w < U64)
    (hg' : g' < U64) (hw' : w' < U64)
    (h : make_primes_file_format g w = make_primes_file_format g' w') : g = g' ∧ w = w' := by
  unfold make_primes_file_format at h
  simp only [List.append_assoc] at h
  have h1 := List.append_cancel_left h
  have hsep : String.toList "_t" = '_' :: ['t'] := by decide
  rw [hsep] at h1
  simp only [List.cons_append, List.nil_append] at h1
  obtain ⟨hd, hr⟩ := append_sep_inj '_' _ _ _ _
    (fun c hc => isdigit_ne_underscore c ((decimal_digits g).1 c hc))
    (fun c hc => isdigit_ne_underscore c ((decimal_digits g').1 c hc)) h1
  have hr' : decimal w ++ String.toList ".csv" = decimal w' ++ String.toList ".csv" := by
    simpa using hr
  have hw2 := List.append_cancel_right hr'
  constructor
  · rw [← digitsValue_decimal g hg, hd, digitsValue_decimal g' hg']
  · rw [← digitsValue_decimal w hw, hw2, digitsValue_decimal w' hw']

/-! ### Concrete runs -/

theorem is_prime_small_values :
    is_prime 0 = some 0 ∧ is_prime 1 = some 0 ∧ is_prime 2 = some 1 ∧ is_prime 3 = some 1 ∧
    is_prime 4 = some 0 ∧ is_prime 5 = some 1 ∧ is_prime 25 = some 0 ∧ is_prime 97 = some 1 := by
  decide

theorem thread_func_scenario_A :
    thread_func true 0 0 1 10 1 = ThreadResult.handed_over [2, 3, 5, 7] := by decide

theorem thread_func_scenario_B :
    thread_func true 0 0 1 5 1 = ThreadResult.handed_over [2, 3, 5] ∧
    thread_func true 1 0 1 5 1 = ThreadResult.handed_over [7] := by decide

theorem thread_func_scenario_C :
    thread_func true 0 0 2 5 1 = ThreadResult.handed_over [2, 3, 5] ∧
    thread_func true 0 1 2 5 1 = ThreadResult.handed_over [7] := by decide

theorem thread_func_boundary :
    thread_func true 0 0 1 1 2 = ThreadResult.handed_over [2] := by decide

theorem thread_func_null_buffer :
    thread_func false 0 0 1 10 1 = ThreadResult.out_of_bounds 0 2 ∧
    thread_func false 0 0 1 2 8 = ThreadResult.handed_over [] := by decide

theorem main_examples :
    main [String.toList "prime_finder", String.toList "2", String.toList "3",
      String.toList "5", String.toList "1"] = MainOutcome.make_primes_dir_called 2 3 5 1 ∧
    main [String.toList "prime_finder", String.toList "2", String.toList "0",
      String.toList "5", String.toList "1"] = MainOutcome.exit 1 ∧
    main [String.toList "prime_finder", String.toList "2", String.toList "3x",
      String.toList "5", String.toList "1"] = MainOutcome.exit 1 ∧
    main [String.toList "prime_finder", String.toList "2", String.toList "",
      String.toList "5", String.toList "1"] = MainOutcome.exit 1 ∧
    main [String.toList "prime_finder", String.toList "2", String.toList "18446744073709551616",
      String.toList "5", String.toList "1"] = MainOutcome.exit 1 ∧
    main [String.toList "prime_finder", String.toList "2", String.toList "3"] =
      MainOutcome.exit 1 := by decide

theorem make_primes_file_filename_example :
    make_primes_file_filename 3 12 = String.toList "primes/primes_p3_t12.csv" := by decide

/-! ### The claims -/

/-- Claim C1: for every unsigned 64-bit `n`, with all arithmetic of `is_prime` taken modulo
`2 ^ 64`, `is_prime n` returns a value, and that value is non-zero if and only if `n` is a
prime number. -/
theorem is_prime_correct (n : Nat) (hn : n < 2 ^ 64) :
    ∃ r, is_prime n = some r ∧ (r ≠ 0 ↔ n.Prime) := by
  refine ⟨if n.Prime then 1 else 0, is_prime_spec n hn, ?_⟩
  by_cases hp : n.Prime <;> simp [hp]

theorem is_prime_correct_witness :
    97 < 2 ^ 64 ∧ ∃ r, is_prime 97 = some r ∧ (r ≠ 0 ↔ Nat.Prime 97) :=
  ⟨by decide, is_prime_correct 97 (by decide)⟩

/-- Claim C2 fails on the code for `G = W = S = 1`, `R = 2305843009213693952 = 2 ^ 61` and
`g = w = 0`, an input within the claim's bounds: whether or not `malloc` returns a buffer, the
first write `found[0] = 2` of `thread_func` addresses an element the buffer does not have, and
no buffer is handed to `make_primes_file`. -/
theorem thread_func_hands_over_nothing :
    (1 ≤ 1 ∧ 1 ≤ 1 ∧ 1 ≤ 2305843009213693952 ∧ 1 ≤ 1 ∧
      1 + 1 * 1 * 2305843009213693952 ≤ 2 ^ 64 - 1 ∧ 0 < 1 ∧ 0 < 1) ∧
    ∀ malloc_succeeds,
      thread_func malloc_succeeds 0 0 1 2305843009213693952 1 =
        ThreadResult.out_of_bounds 0 2 := by
  decide

theorem ordinal_lt_of_ne (W g w g' w' : Nat) (hw : w < W) (hw' : w' < W)
    (hne : (g, w) ≠ (g', w')) : g * W + w < g' * W + w' ∨ g' * W + w' < g * W + w := by
  rcases Nat.lt_trichotomy g g' with h | h | h
  · left
    have : (g + 1) * W ≤ g' * W := Nat.mul_le_mul_right W h
    rw [Nat.add_mul] at this
    omega
  · subst h
    have : w ≠ w' := fun h => hne (by rw [h])
    omega
  · right
    have : (g' + 1) * W ≤ g * W := Nat.mul_le_mul_right W h
    rw [Nat.add_mul] at this
    omega

/-- Claim C3: for `G, W, R, S ≥ 1` with `S + G * W * R ≤ 2 ^ 64 - 1`, the ranges
`[start, end)` that `thread_func` computes for two different pairs `(g, w)` and `(g', w')`
with `g, g' < G` and `w, w' < W` have no integer in common. -/
theorem thread_ranges_disjoint (G W R S g w g' w' : Nat) (_hG : 1 ≤ G) (_hW : 1 ≤ W)
    (hR : 1 ≤ R) (_hS : 1 ≤ S) (hsum : S + G * W * R ≤ 2 ^ 64 - 1) (hg : g < G) (hw : w < W)
    (hg' : g' < G) (hw' : w' < W) (hne : (g, w) ≠ (g', w')) :
    ∀ x, ¬ (((thread_range g w W R S).1 ≤ x ∧ x < (thread_range g w W R S).2) ∧
      ((thread_range g' w' W R S).1 ≤ x ∧ x < (thread_range g' w' W R S).2)) := by
  intro x
  rw [thread_range_exact G W R S g w hR hsum hg hw,
    thread_range_exact G W R S g' w' hR hsum hg' hw']
  simp only []
  rintro ⟨⟨h1, h2⟩, h3, h4⟩
  rcases ordinal_lt_of_ne W g w g' w' hw hw' hne with h | h
  · have : (g * W + w + 1) * R ≤ (g' * W + w') * R := Nat.mul_le_mul_right R h
    rw [Nat.add_mul, Nat.one_mul] at this
    omega
  · have : (g' * W + w' + 1) * R ≤ (g * W + w) * R := Nat.mul_le_mul_right R h
    rw [Nat.add_mul, Nat.one_mul] at this
    omega

theorem thread_ranges_disjoint_witness :
    (1 ≤ 2 ∧ 1 ≤ 3 ∧ 1 ≤ 5 ∧ 1 ≤ 1 ∧ 1 + 2 * 3 * 5 ≤ 2 ^ 64 - 1 ∧ 0 < 2 ∧ 2 < 3 ∧ 1 < 2 ∧
      0 < 3 ∧ ((0, 2) : Nat × Nat) ≠ (1, 0)) ∧
    ∀ x, ¬ (((thread_range 0 2 3 5 1).1 ≤ x ∧ x < (thread_range 0 2 3 5 1).2) ∧
      ((thread_range 1 0 3 5 1).1 ≤ x ∧ x < (thread_range 1 0 3 5 1).2)) :=
  ⟨by decide, thread_ranges_disjoint 2 3 5 1 0 2 1 0 (by decide) (by decide) (by decide)
    (by decide) (by decide) (by decide) (by decide) (by decide) (by decide) (by decide)⟩

/-- Claim C4: for `G, W, R, S ≥ 1` with `S + G * W * R ≤ 2 ^ 64 - 1`, the ranges computed by
`thread_func` for all `g < G`, `w < W` cover exactly `[S, S + G * W * R)`: each range lies
inside the interval, every integer of the interval lies in some range, and the range of
ordinal `g * W + w` ends where the range of the next ordinal starts. -/
theorem thread_ranges_cover (G W R S : Nat) (_hG : 1 ≤ G) (_hW : 1 ≤ W) (hR : 1 ≤ R)
    (_hS : 1 ≤ S) (hsum : S + G * W * R ≤ 2 ^ 64 - 1) :
    (∀ g w, g < G → w < W →
      S ≤ (thread_range g w W R S).1 ∧ (thread_range g w W R S).2 ≤ S + G * W * R) ∧
    (∀ x, S ≤ x → x < S + G * W * R →
      ∃ g w, g < G ∧ w < W ∧
        (thread_range g w W R S).1 ≤ x ∧ x < (thread_range g w W R S).2) ∧
    (∀ g w g' w', g < G → w < W → g' < G → w' < W → g' * W + w' = g * W + w + 1 →
      (thread_range g' w' W R S).1 = (thread_range g w W R S).2) := by
  refine ⟨?_, ?_, ?_⟩
  · intro g w hg hw
    rw [thread_range_exact G W R S g w hR hsum hg hw]
    simp only []
    have h1 : g * W + w + 1 ≤ G * W := by
      have : (g + 1) * W ≤ G * W := Nat.mul_le_mul_right W hg
      rw [Nat.add_mul] at this
      omega
    have h2 : (g * W + w + 1) * R ≤ G * W * R := Nat.mul_le_mul_right R h1
    rw [Nat.add_mul, Nat.one_mul] at h2
    omega
  · intro x hx1 hx2
    have hkl : (x - S) / R < G * W := by
      rw [Nat.div_lt_iff_lt_mul hR]
      omega
    have hWpos : 0 < W := by omega
    have hg : (x - S) / R / W < G := by
      rw [Nat.div_lt_iff_lt_mul hWpos]
      exact hkl
    have hw : (x - S) / R % W < W := Nat.mod_lt _ hWpos
    refine ⟨(x - S) / R / W, (x - S) / R % W, hg, hw, ?_⟩
    rw [thread_range_exact G W R S _ _ hR hsum hg hw]
    simp only []
    have hk : (x - S) / R / W * W + (x - S) / R % W = (x - S) / R := Nat.div_add_mod' _ _
    rw [hk]
    have h1 : (x - S) / R * R ≤ x - S := Nat.div_mul_le_self _ _
    have h2 : x - S < R * ((x - S) / R + 1) := Nat.lt_mul_div_succ _ hR
    rw [Nat.mul_add, Nat.mul_one, Nat.mul_comm] at h2
    omega
  · intro g w g' w' hg hw hg' hw' hk
    rw [thread_range_exact G W R S g w hR hsum hg hw,
      thread_range_exact G W R S g' w' hR hsum hg' hw', hk]
    simp only []
    rw [Nat.add_mul, Nat.one_mul]
    omega

theorem thread_ranges_cover_witness :
    (1 ≤ 2 ∧ 1 ≤ 3 ∧ 1 ≤ 5 ∧ 1 ≤ 1 ∧ 1 + 2 * 3 * 5 ≤ 2 ^ 64 - 1) ∧
    ((∀ g w, g < 2 → w < 3 →
      1 ≤ (thread_range g w 3 5 1).1 ∧ (thread_range g w 3 5 1).2 ≤ 1 + 2 * 3 * 5) ∧
    (∀ x, 1 ≤ x → x < 1 + 2 * 3 * 5 →
      ∃ g w, g < 2 ∧ w < 3 ∧
        (thread_range g w 3 5 1).1 ≤ x ∧ x < (thread_range g w 3 5 1).2) ∧
    (∀ g w g' w', g < 2 → w < 3 → g' < 2 → w' < 3 → g' * 3 + w' = g * 3 + w + 1 →
      (thread_range g' w' 3 5 1).1 = (thread_range g w 3 5 1).2)) :=
  ⟨by decide, thread_ranges_cover 2 3 5 1 (by decide) (by decide) (by decide) (by decide)
    (by decide)⟩

/-- Claim C6 fails on the code: with the four arguments `-1`, `1`, `1`, `1` the validation
of `main` does not exit; `make_primes_dir` is called, with `process_num = 2 ^ 64 - 1`,
although `-1` is not the decimal text of a positive integer. -/
theorem main_accepts_minus_one :
    main [String.toList "prime_finder", String.toList "-1", String.toList "1",
      String.toList "1", String.toList "1"] =
      MainOutcome.make_primes_dir_called 18446744073709551615 1 1 1 ∧
    ¬ IsPositiveDecimal (String.toList "-1") := by
  refine ⟨by decide, ?_⟩
  rintro ⟨-, h, -⟩
  have := h '-' (by decide)
  revert this
  decide

theorem main_outcome_cases (argv : List (List Char)) :
    main argv = MainOutcome.exit 1 ∨
      ∃ G W R S, main argv = MainOutcome.make_primes_dir_called G W R S := by
  have hs : ∀ st, main argv = MainOutcome.exit st → st = 1 := by
    intro st hst
    unfold main at hst
    split at hst
    · simp only [] at hst
      split_ifs at hst <;> injection hst with e <;> exact e.symm
    · injection hst with e; exact e.symm
  have hcases : ∀ o : MainOutcome, main argv = o →
      o = MainOutcome.exit 1 ∨ ∃ G W R S, o = MainOutcome.make_primes_dir_called G W R S := by
    intro o ho
    cases o with
    | exit s => left; rw [hs s ho]
    | make_primes_dir_called a b c d => exact Or.inr ⟨a, b, c, d, rfl⟩
  rcases hcases (main argv) rfl with h | ⟨G, W, R, S, h⟩
  · exact Or.inl h
  · exact Or.inr ⟨G, W, R, S, h⟩

/-- What the validation of `main` lets through, as the code stands: `make_primes_dir` is
called (with the numbers `G, W, R, S`) only for four arguments that each consist of white
space, a sign character and decimal digits as `strtoull` reads them (`ConvertsTo`), and every
other argument vector ends in exit status 1. This records the behaviour of the code,
including the minus sign it lets through; it is not what the specification asks for. -/
theorem main_validation (argv : List (List Char)) :
    (∀ G W R S, main argv = MainOutcome.make_primes_dir_called G W R S →
      ∃ prog a1 a2 a3 a4, argv = [prog, a1, a2, a3, a4] ∧
        ConvertsTo a1 G ∧ ConvertsTo a2 W ∧ ConvertsTo a3 R ∧ ConvertsTo a4 S) ∧
    ((¬ ∃ prog a1 a2 a3 a4 G W R S, argv = [prog, a1, a2, a3, a4] ∧
        ConvertsTo a1 G ∧ ConvertsTo a2 W ∧ ConvertsTo a3 R ∧ ConvertsTo a4 S) →
      main argv = MainOutcome.exit 1) := by
  have key : ∀ G W R S, main argv = MainOutcome.make_primes_dir_called G W R S →
      ∃ prog a1 a2 a3 a4, argv = [prog, a1, a2, a3, a4] ∧
        ConvertsTo a1 G ∧ ConvertsTo a2 W ∧ ConvertsTo a3 R ∧ ConvertsTo a4 S := by
    intro G W R S h
    obtain ⟨prog, a1, a2, a3, a4, hargv, h1, h2, h3, h4⟩ := (main_reaches_iff argv G W R S).mp h
    exact ⟨prog, a1, a2, a3, a4, hargv, (accepts_iff_convertsTo a1 G).mp h1,
      (accepts_iff_convertsTo a2 W).mp h2, (accepts_iff_convertsTo a3 R).mp h3,
      (accepts_iff_convertsTo a4 S).mp h4⟩
  refine ⟨key, ?_⟩
  intro hno
  rcases main_outcome_cases argv with h | ⟨G, W, R, S, h⟩
  · exact h
  · obtain ⟨prog, a1, a2, a3, a4, hargv, h1, h2, h3, h4⟩ := key G W R S h
    exact absurd ⟨prog, a1, a2, a3, a4, G, W, R, S, hargv, h1, h2, h3, h4⟩ hno

/-- Text of the accepted shape is accepted: `main` calls `make_primes_dir` with `G, W, R, S`
whenever the four arguments convert to these numbers. -/
theorem main_accepts_converted (prog a1 a2 a3 a4 : List Char) (G W R S : Nat)
    (h1 : ConvertsTo a1 G) (h2 : ConvertsTo a2 W) (h3 : ConvertsTo a3 R)
    (h4 : ConvertsTo a4 S) :
    main [prog, a1, a2, a3, a4] = MainOutcome.make_primes_dir_called G W R S :=
  (main_reaches_iff _ G W R S).mpr ⟨prog, a1, a2, a3, a4, rfl,
    (accepts_iff_convertsTo a1 G).mpr h1, (accepts_iff_convertsTo a2 W).mpr h2,
    (accepts_iff_convertsTo a3 R).mpr h3, (accepts_iff_convertsTo a4 S).mpr h4⟩

/-- Claim C7 fails on the prime `n = 18446744073709007941`: the call `is_prime(n)` evaluates
the loop condition at `i = 4294967297 = 2 ^ 32 + 1`, where the product `i * i` is not below
`2 ^ 64` and the comparison is made on the wrapped value, which is still `≤ n`. -/
theorem is_prime_square_wraps :
    4294967297 ∈ is_prime_trace 18446744073709007941 ∧
    2 ^ 64 ≤ 4294967297 * 4294967297 ∧
    (4294967297 * 4294967297) % U64 ≤ 18446744073709007941 := by
  refine ⟨?_, by decide, by decide⟩
  unfold is_prime_trace
  rw [if_neg (by decide), if_neg (by decide), if_neg (by decide)]
  exact is_prime_loop_trace_mem bigPrime 4294967297 bigPrime_prime (by decide) (by decide)
    (by decide) 715827882 U64 5 (by decide) (by decide) (by decide)

/-- Claim C8: `is_prime` is total on the unsigned 64-bit domain: for every `n < 2 ^ 64` the
loop, with `i`, `i * i`, `i + 2` and `i += 6` computed modulo `2 ^ 64`, ends after at most
`n` iterations and a value is returned; a larger iteration bound does not change it. -/
theorem is_prime_total (n : Nat) (hn : n < 2 ^ 64) :
    ∃ r, is_prime n = some r ∧ ∀ fuel, n ≤ fuel → is_prime_fuel fuel n = some r :=
  ⟨_, is_prime_spec n hn, fun fuel hf => is_prime_fuel_spec fuel n hn hf⟩

theorem is_prime_total_witness :
    18446744073709551557 < 2 ^ 64 ∧
    ∃ r, is_prime 18446744073709551557 = some r ∧
      ∀ fuel, 18446744073709551557 ≤ fuel →
        is_prime_fuel fuel 18446744073709551557 = some r :=
  ⟨by decide, is_prime_total 18446744073709551557 (by decide)⟩

/-- Claim C9, as stated, fails: `G = W = 1`, `R = 2 ^ 64 - 1`, `S = 2` pass the validation
of `main`, yet for `g = w = 0` the value `end` computed by `thread_func` is 1, not
`start + R = 2 ^ 64 + 1`. -/
theorem thread_range_wraps :
    (1 ≤ 1 ∧ 1 ≤ 2 ^ 64 - 1 ∧ 1 ≤ 18446744073709551615 ∧ 18446744073709551615 ≤ 2 ^ 64 - 1 ∧
      1 ≤ 2 ∧ 2 ≤ 2 ^ 64 - 1 ∧ 0 < 1) ∧
    thread_range 0 0 1 18446744073709551615 2 = (2, 1) ∧
    (thread_range 0 0 1 18446744073709551615 2).2 ≠
      2 + (0 * 1 + 0) * 18446744073709551615 + 18446744073709551615 := by
  decide

/-- Claim C9, amended: for `G, W, R, S` each in `1 … 2 ^ 64 - 1`, the values `start` and `end`
that `thread_func` computes in 64-bit arithmetic equal `S + (g * W + w) * R` and `start + R`
for every `g < G`, `w < W` if and only if `S + G * W * R ≤ 2 ^ 64 - 1`. -/
theorem thread_range_exact_iff (G W R S : Nat) (hG : 1 ≤ G) (_hG' : G ≤ 2 ^ 64 - 1)
    (hW : 1 ≤ W) (_hW' : W ≤ 2 ^ 64 - 1) (hR : 1 ≤ R) (_hR' : R ≤ 2 ^ 64 - 1) (_hS : 1 ≤ S)
    (_hS' : S ≤ 2 ^ 64 - 1) :
    (∀ g w, g < G → w < W →
      thread_range g w W R S = (S + (g * W + w) * R, S + (g * W + w) * R + R)) ↔
    S + G * W * R ≤ 2 ^ 64 - 1 := by
  constructor
  · intro h
    obtain ⟨G', rfl⟩ : ∃ G', G = G' + 1 := ⟨G - 1, by omega⟩
    obtain ⟨W', rfl⟩ : ∃ W', W = W' + 1 := ⟨W - 1, by omega⟩
    have h1 := h G' W' (by omega) (by omega)
    have h2 := (thread_range_lt G' W' (W' + 1) R S).2
    rw [h1] at h2
    simp only [] at h2
    have hU : U64 = 2 ^ 64 := rfl
    have : S + (G' * (W' + 1) + W') * R + R = S + (G' + 1) * (W' + 1) * R := by ring
    omega
  · intro hsum g w hg hw
    exact thread_range_exact G W R S g w hR hsum hg hw

theorem thread_range_exact_iff_witness :
    (1 ≤ 2 ∧ 2 ≤ 2 ^ 64 - 1 ∧ 1 ≤ 3 ∧ 3 ≤ 2 ^ 64 - 1 ∧ 1 ≤ 5 ∧ 5 ≤ 2 ^ 64 - 1 ∧ 1 ≤ 1 ∧
      1 ≤ 2 ^ 64 - 1) ∧
    ((∀ g w, g < 2 → w < 3 →
      thread_range g w 3 5 1 = (1 + (g * 3 + w) * 5, 1 + (g * 3 + w) * 5 + 5)) ↔
    1 + 2 * 3 * 5 ≤ 2 ^ 64 - 1) :=
  ⟨by decide, thread_range_exact_iff 2 3 5 1 (by decide) (by decide) (by decide) (by decide)
    (by decide) (by decide) (by decide) (by decide)⟩

/-- Claim C10: for unsigned 64-bit `(g, w)` the name written by `make_primes_file`,
`primes/primes_p<g>_t<w>.csv` with `g` and `w` in decimal, has fewer than 512 characters, so
it is stored without truncation, and two different pairs `(g, w) ≠ (g', w')` give
different names. -/
theorem make_primes_file_filename_injective (g w g' w' : Nat) (hg : g < 2 ^ 64)
    (hw : w < 2 ^ 64) (hg' : g' < 2 ^ 64) (hw' : w' < 2 ^ 64) :
    (make_primes_file_format g w).length < 512 ∧
    make_primes_file_filename g w = make_primes_file_format g w ∧
    ((g, w) ≠ (g', w') → make_primes_file_filename g w ≠ make_primes_file_filename g' w') := by
  refine ⟨?_, make_primes_file_filename_eq_text g w, ?_⟩
  · have := make_primes_file_format_length g w
    omega
  · intro hne heq
    rw [make_primes_file_filename_eq_text, make_primes_file_filename_eq_text] at heq
    obtain ⟨h1, h2⟩ := make_primes_file_format_inj g w g' w' hg hw hg' hw' heq
    exact hne (by rw [h1, h2])

theorem make_primes_file_filename_injective_witness :
    ((1 : Nat) < 2 ^ 64 ∧ (11 : Nat) < 2 ^ 64 ∧ (11 : Nat) < 2 ^ 64 ∧ (1 : Nat) < 2 ^ 64) ∧
    ((make_primes_file_format 1 11).length < 512 ∧
    make_primes_file_filename 1 11 = make_primes_file_format 1 11 ∧
    (((1, 11) : Nat × Nat) ≠ (11, 1) → make_primes_file_filename 1 11 ≠ make_primes_file_filename 11 1)) :=
  ⟨by decide, make_primes_file_filename_injective 1 11 11 1 (by decide) (by decide) (by decide)
    (by decide)⟩

/-! ### Comparison with the naive scan -/

theorem mem_naive_scan (start e p : Nat) (he : e ≤ U64) :
    p ∈ naive_scan start e ↔ p.Prime ∧ start ≤ p ∧ p < e := by
  unfold naive_scan
  rw [List.mem_filter, List.mem_range'_1]
  constructor
  · rintro ⟨⟨h1, h2⟩, h3⟩
    have hp : p < U64 := by omega
    rw [is_prime_spec p hp] at h3
    refine ⟨?_, h1, by omega⟩
    by_contra hnp
    simp [hnp] at h3
  · rintro ⟨hp, h1, h2⟩
    refine ⟨⟨h1, by omega⟩, ?_⟩
    rw [is_prime_spec p (by omega)]
    simp [hp]

theorem naive_scan_sorted (start e : Nat) : (naive_scan start e).Pairwise (· < ·) := by
  unfold naive_scan
  exact List.Pairwise.filter _ (List.pairwise_lt_range' _ _)

theorem scanResult_eq_naive_scan (start e : Nat) (he : e ≤ U64) :
    scanResult start e = naive_scan start e := by
  have h1 := scanResult_sorted start e
  have h2 := naive_scan_sorted start e
  apply List.eq_of_perm_of_sorted (r := (· < ·)) _ h1 h2
  rw [List.perm_ext_iff_of_nodup (h1.imp (fun h => Nat.ne_of_lt h))
    (h2.imp (fun h => Nat.ne_of_lt h))]
  intro a
  rw [mem_scanResult, mem_naive_scan start e a he]

theorem naive_scan_example : naive_scan 1 11 = [2, 3, 5, 7] := by decide

/-- Claim C14: for every unsigned 64-bit `n` that is not prime, `is_prime n` returns 0, with
`i * i` computed modulo `2 ^ 64`; hence whenever `is_prime n` returns a non-zero value,
`n` is prime. -/
theorem is_prime_rejects_non_primes (n : Nat) (hn : n < 2 ^ 64) :
    (¬ n.Prime → is_prime n = some 0) ∧
    (∀ r, is_prime n = some r → r ≠ 0 → n.Prime) := by
  have hU : U64 = 2 ^ 64 := rfl
  have key : ¬ n.Prime → is_prime n = some 0 := by
    intro hp
    unfold is_prime is_prime_fuel
    by_cases h1 : n < 2
    · rw [if_pos h1]
    rw [if_neg h1]
    by_cases h23 : n = 2 ∨ n = 3
    · exfalso
      rcases h23 with rfl | rfl
      · exact hp Nat.prime_two
      · exact hp Nat.prime_three
    rw [if_neg h23]
    by_cases hdiv : n % 2 = 0 ∨ n % 3 = 0
    · rw [if_pos hdiv]
    rw [if_neg hdiv]
    obtain ⟨s, k, hk, hsq, hd⟩ := exists_divisor n hp (by omega) (by omega) (by omega)
    have hs : s ≤ s * s := Nat.le_mul_self s
    exact is_prime_loop_divisor_aux n s (by omega) hsq hd k U64 5 (by omega) hk (by omega)
  refine ⟨key, ?_⟩
  intro r hr hr0
  by_contra hp
  rw [key hp] at hr
  injection hr with e
  exact hr0 e.symm

theorem is_prime_rejects_non_primes_witness :
    18446744030759878681 < 2 ^ 64 ∧
    ((¬ Nat.Prime 18446744030759878681 → is_prime 18446744030759878681 = some 0) ∧
    (∀ r, is_prime 18446744030759878681 = some r → r ≠ 0 →
      Nat.Prime 18446744030759878681)) :=
  ⟨by decide, is_prime_rejects_non_primes 18446744030759878681 (by decide)⟩

/-! ### Runs without wraparound -/

theorem is_prime_loop_trace_le (n : Nat) (hn : n < (2 ^ 32 - 5) * (2 ^ 32 - 5)) :
    ∀ (fuel i : Nat), i ≤ 2 ^ 32 - 5 → i % 6 = 5 →
      ∀ j ∈ is_prime_loop_trace fuel n i, j ≤ 2 ^ 32 - 5 := by
  have hU : U64 = 2 ^ 64 := rfl
  intro fuel
  induction fuel with
  | zero =>
    intro i _ _ j hj
    simp [is_prime_loop_trace] at hj
  | succ f ih =>
    intro i hi hmod j hj
    unfold is_prime_loop_trace at hj
    rcases List.mem_cons.mp hj with rfl | hj
    · exact hi
    · have hsq : i * i ≤ (2 ^ 32 - 5) * (2 ^ 32 - 5) := Nat.mul_le_mul hi hi
      have h0 : (i * i) % U64 = i * i := Nat.mod_eq_of_lt (by rw [hU]; omega)
      rw [h0] at hj
      split_ifs at hj with hc h1 h2 h3 h4
      all_goals try (simp at hj)
      have hlt : i < 2 ^ 32 - 5 := by
        by_contra hge
        have hge' : 2 ^ 32 - 5 ≤ i := by omega
        have := Nat.mul_le_mul hge' hge'
        omega
      have h6 : (i + 6) % U64 = i + 6 := Nat.mod_eq_of_lt (by omega)
      rw [h6] at hj
      exact ih (i + 6) (by omega) (by omega) j hj

theorem is_prime_trace_le (n : Nat) (hn : n < (2 ^ 32 - 5) * (2 ^ 32 - 5)) :
    ∀ j ∈ is_prime_trace n, j ≤ 2 ^ 32 - 5 := by
  intro j hj
  unfold is_prime_trace at hj
  split_ifs at hj
  all_goals try (simp at hj)
  exact is_prime_loop_trace_le n hn U64 5 (by decide) (by decide) j hj

/-- Claim C13: for every `n < (2 ^ 32 - 5) ^ 2 = 18446744030759878681`, each evaluation of the
loop condition of `is_prime n` has `i * i`, `i + 2` and `i + 6` below `2 ^ 64`, and
`is_prime n` returns a value that is non-zero if and only if `n` is prime; in particular it
returns 0 for `n < 2` and for 4, 6, 8, 9, 25, and non-zero for 2, 3, 5, 7, 11, 13, 97. -/
theorem is_prime_exact_below_wrap (n : Nat) (hn : n < 18446744030759878681) :
    (∀ i ∈ is_prime_trace n, i * i < 2 ^ 64 ∧ i + 2 < 2 ^ 64 ∧ i + 6 < 2 ^ 64) ∧
    (∃ r, is_prime n = some r ∧ (r ≠ 0 ↔ n.Prime)) ∧
    (n < 2 → is_prime n = some 0) ∧
    (n ∈ [4, 6, 8, 9, 25] → is_prime n = some 0) ∧
    (n ∈ [2, 3, 5, 7, 11, 13, 97] → ∃ r, is_prime n = some r ∧ r ≠ 0) := by
  have hU : U64 = 2 ^ 64 := rfl
  have hB : n < (2 ^ 32 - 5) * (2 ^ 32 - 5) := by omega
  have hspec := is_prime_spec n (by omega)
  refine ⟨?_, ?_, ?_, ?_, ?_⟩
  · intro i hi
    have hle := is_prime_trace_le n hB i hi
    have hsq : i * i ≤ (2 ^ 32 - 5) * (2 ^ 32 - 5) := Nat.mul_le_mul hle hle
    exact ⟨by omega, by omega, by omega⟩
  · refine ⟨_, hspec, ?_⟩
    by_cases hp : n.Prime <;> simp [hp]
  · intro h2
    have hp : ¬ n.Prime := fun hp => by have := hp.two_le; omega
    rw [hspec, if_neg hp]
  · intro hmem
    have hp : ¬ n.Prime := by
      simp only [List.mem_cons, List.mem_singleton, List.not_mem_nil, or_false] at hmem
      rcases hmem with rfl | rfl | rfl | rfl | rfl <;> norm_num
    rw [hspec, if_neg hp]
  · intro hmem
    have hp : n.Prime := by
      simp only [List.mem_cons, List.mem_singleton, List.not_mem_nil, or_false] at hmem
      rcases hmem with rfl | rfl | rfl | rfl | rfl | rfl | rfl <;> norm_num
    exact ⟨1, by rw [hspec, if_pos hp], by decide⟩

theorem is_prime_exact_below_wrap_witness :
    97 < 18446744030759878681 ∧
    ((∀ i ∈ is_prime_trace 97, i * i < 2 ^ 64 ∧ i + 2 < 2 ^ 64 ∧ i + 6 < 2 ^ 64) ∧
    (∃ r, is_prime 97 = some r ∧ (r ≠ 0 ↔ Nat.Prime 97)) ∧
    (97 < 2 → is_prime 97 = some 0) ∧
    (97 ∈ [4, 6, 8, 9, 25] → is_prime 97 = some 0) ∧
    (97 ∈ [2, 3, 5, 7, 11, 13, 97] → ∃ r, is_prime 97 = some r ∧ r ≠ 0)) :=
  ⟨by decide, is_prime_exact_below_wrap 97 (by decide)⟩

/-! ### Write indices of the result buffer -/

theorem indexFrom_append : ∀ (l1 l2 : List Nat) (c : Nat),
    indexFrom c (l1 ++ l2) = indexFrom c l1 ++ indexFrom (c + l1.length) l2 := by
  intro l1
  induction l1 with
  | nil => intro l2 c; simp [indexFrom]
  | cons a t ih =>
    intro l2 c
    have e1 : c + (a :: t).length = c + 1 + t.length := by
      simp only [List.length_cons]
      omega
    rw [e1]
    show (c, a) :: indexFrom (c + 1) (t ++ l2) =
      (c, a) :: indexFrom (c + 1) t ++ indexFrom (c + 1 + t.length) l2
    rw [ih l2 (c + 1)]
    rfl

theorem indexFrom_facts : ∀ (l : List Nat) (c : Nat),
    (indexFrom c l).map Prod.snd = l ∧ (indexFrom c l).length = l.length ∧
    ∀ p ∈ indexFrom c l, c ≤ p.1 ∧ p.1 < c + l.length := by
  intro l
  induction l with
  | nil => intro c; simp [indexFrom]
  | cons a t ih =>
    intro c
    obtain ⟨h1, h2, h3⟩ := ih (c + 1)
    refine ⟨by simp [indexFrom, h1], by simp [indexFrom, h2], ?_⟩
    intro p hp
    simp only [indexFrom, List.mem_cons] at hp
    rcases hp with rfl | hp
    · simp
    · have := h3 p hp
      simp only [List.length_cons]
      omega

theorem oddPrimesFrom_step (n e : Nat) (hodd : n % 2 = 1) (hlt : n < e) :
    oddPrimesFrom n e = (if n.Prime then [n] else []) ++ oddPrimesFrom (n + 2) e := by
  unfold oddPrimesFrom
  obtain ⟨m, hm⟩ : ∃ m, e - n = m + 1 := ⟨e - n - 1, by omega⟩
  rw [hm, List.range'_succ]
  rcases m with _ | m
  · have : e - (n + 2) = 0 := by omega
    rw [this]
    by_cases hp : n.Prime <;> simp [hp, hodd, List.filter_cons]
  · have : e - (n + 2) = m := by omega
    rw [this, List.range'_succ]
    have hev : ¬ ((n + 1) % 2 = 1) := by omega
    by_cases hp : n.Prime <;> simp [hp, hodd, hev, List.filter_cons]

theorem oddPrimesFrom_length_le (n e : Nat) : (oddPrimesFrom n e).length ≤ e - n := by
  unfold oddPrimesFrom
  have := List.length_filter_le (fun m => decide (m % 2 = 1 ∧ m.Prime)) (List.range' n (e - n))
  simpa using this

theorem thread_func_loop_writes_spec (e : Nat) (he : e < U64) :
    ∀ (k fuel n count : Nat) (writes : List (Nat × Nat)), n % 2 = 1 → e ≤ n + 2 * k →
      k < fuel → count + (e - n) < U64 →
      thread_func_loop_writes fuel e n count writes =
        some (writes ++ indexFrom count (oddPrimesFrom n e)) := by
  have hU : U64 = 2 ^ 64 := rfl
  intro k
  induction k with
  | zero =>
    intro fuel n count writes _ hk hf _
    obtain ⟨f, rfl⟩ : ∃ f, fuel = f + 1 := ⟨fuel - 1, by omega⟩
    have hne : ¬ n < e := by omega
    have h0 : e - n = 0 := by omega
    simp [thread_func_loop_writes, hne, oddPrimesFrom, h0, indexFrom]
  | succ k ih =>
    intro fuel n count writes hodd hk hf hc
    obtain ⟨f, rfl⟩ : ∃ f, fuel = f + 1 := ⟨fuel - 1, by omega⟩
    by_cases hlt : n < e
    · have hn2 : (n + 2) % U64 = n + 2 := Nat.mod_eq_of_lt (by omega)
      have hc1 : (count + 1) % U64 = count + 1 := Nat.mod_eq_of_lt (by omega)
      unfold thread_func_loop_writes
      rw [if_pos hlt, is_prime_spec n (by omega), oddPrimesFrom_step n e hodd hlt]
      simp only []
      rw [hn2, hc1]
      by_cases hp : n.Prime
      · rw [if_pos hp, if_pos (by decide),
          ih f (n + 2) (count + 1) _ (by omega) (by omega) (by omega) (by omega)]
        simp [indexFrom, hp]
      · rw [if_neg hp, if_neg (by decide),
          ih f (n + 2) count _ (by omega) (by omega) (by omega) (by omega)]
        simp [hp]
    · have h0 : e - n = 0 := by omega
      simp [thread_func_loop_writes, hlt, oddPrimesFrom, h0, indexFrom]

theorem thread_scan_writes_spec (start e : Nat) (hs : start < U64) (he : e < U64) :
    thread_scan_writes start e = some (indexFrom 0 (scanResult start e)) := by
  have hU : U64 = 2 ^ 64 := rfl
  have h3' : ¬ (3 % 2 = 0) := by decide
  have h1 : (0 + 1) % U64 = 1 := by decide
  unfold thread_scan_writes scanResult
  simp only []
  by_cases h2 : start ≤ 2 ∧ 2 < e
  · have h3 : start < 3 := by omega
    rw [if_pos h2, if_pos h2, if_pos h2, if_pos h3, if_pos h3, if_neg h3', h1,
      thread_func_loop_writes_spec e he e U64 3 1 _ (by decide) (by omega) he (by omega),
      indexFrom_append]
    rfl
  · rw [if_neg h2, if_neg h2, if_neg h2]
    by_cases h3 : start < 3
    · rw [if_pos h3, if_pos h3, if_neg h3',
        thread_func_loop_writes_spec e he e U64 3 0 _ (by decide) (by omega) he (by omega)]
      rfl
    · rw [if_neg h3, if_neg h3]
      by_cases hev : start % 2 = 0
      · rw [if_pos hev, if_pos hev, Nat.mod_eq_of_lt (show start + 1 < U64 by omega),
          thread_func_loop_writes_spec e he e U64 (start + 1) 0 _ (by omega) (by omega) he
            (by omega)]
        rfl
      · rw [if_neg hev, if_neg hev,
          thread_func_loop_writes_spec e he e U64 start 0 _ (by omega) (by omega) he
            (by omega)]
        rfl

theorem scanResult_length_le (start e : Nat) (hse : start < e) :
    (scanResult start e).length ≤ e - start := by
  unfold scanResult
  rw [List.length_append]
  by_cases h2 : start ≤ 2 ∧ 2 < e
  · have h3 : start < 3 := by omega
    rw [if_pos h2, if_pos h3]
    have := oddPrimesFrom_length_le 3 e
    simp only [List.length_singleton]
    omega
  · rw [if_neg h2]
    simp only [List.length_nil, Nat.zero_add]
    split_ifs
    · have := oddPrimesFrom_length_le 3 e
      omega
    · have := oddPrimesFrom_length_le (start + 1) e
      omega
    · have := oddPrimesFrom_length_le start e
      omega

/-! ### The scan with a buffer that has room -/

theorem thread_func_loop_spec (cap e : Nat) (he : e < U64) :
    ∀ (k fuel n : Nat) (found : List Nat), n % 2 = 1 → e ≤ n + 2 * k → k < fuel →
      found.length + (oddPrimesFrom n e).length ≤ cap →
      thread_func_loop fuel cap e n found =
        ThreadResult.handed_over (found ++ oddPrimesFrom n e) := by
  have hU : U64 = 2 ^ 64 := rfl
  intro k
  induction k with
  | zero =>
    intro fuel n found _ hk hf _
    obtain ⟨f, rfl⟩ : ∃ f, fuel = f + 1 := ⟨fuel - 1, by omega⟩
    have hne : ¬ n < e := by omega
    have h0 : e - n = 0 := by omega
    simp [thread_func_loop, hne, oddPrimesFrom, h0]
  | succ k ih =>
    intro fuel n found hodd hk hf hroom
    obtain ⟨f, rfl⟩ : ∃ f, fuel = f + 1 := ⟨fuel - 1, by omega⟩
    by_cases hlt : n < e
    · have hn2 : (n + 2) % U64 = n + 2 := Nat.mod_eq_of_lt (by omega)
      have hstep := oddPrimesFrom_step n e hodd hlt
      unfold thread_func_loop
      rw [if_pos hlt, is_prime_spec n (by omega)]
      simp only []
      rw [hn2]
      by_cases hp : n.Prime
      · rw [if_pos hp] at hstep
        have hlen : (oddPrimesFrom n e).length = 1 + (oddPrimesFrom (n + 2) e).length := by
          rw [hstep, List.length_append, List.length_singleton]
        have hroom' : (found ++ [n]).length + (oddPrimesFrom (n + 2) e).length ≤ cap := by
          rw [List.length_append, List.length_singleton]
          omega
        rw [if_pos hp, if_pos (by decide), if_pos (by omega),
          ih f (n + 2) (found ++ [n]) (by omega) (by omega) (by omega) hroom', hstep]
        simp
      · rw [if_neg hp] at hstep
        have hlen : (oddPrimesFrom n e).length = (oddPrimesFrom (n + 2) e).length := by
          rw [hstep, List.nil_append]
        rw [if_neg hp, if_neg (by decide),
          ih f (n + 2) found (by omega) (by omega) (by omega) (by omega), hstep]
        simp
    · have h0 : e - n = 0 := by omega
      simp [thread_func_loop, hlt, oddPrimesFrom, h0]

theorem thread_scan_spec (cap start e : Nat) (hs : start < U64) (he : e < U64)
    (hroom : (scanResult start e).length ≤ cap) :
    thread_scan cap start e = ThreadResult.handed_over (scanResult start e) := by
  have hU : U64 = 2 ^ 64 := rfl
  have h3' : ¬ (3 % 2 = 0) := by decide
  unfold scanResult at hroom ⊢
  unfold thread_scan
  simp only []
  by_cases h2 : start ≤ 2 ∧ 2 < e
  · have h3 : start < 3 := by omega
    rw [if_pos h2, if_pos h3] at hroom
    rw [List.length_append, List.length_singleton] at hroom
    rw [if_pos h2, if_pos h2, if_pos h3, if_pos h3, if_neg h3', if_pos (by omega)]
    exact thread_func_loop_spec cap e he e U64 3 [2] (by decide) (by omega) he
      (by simpa using hroom)
  · rw [if_neg h2] at hroom
    rw [List.length_append, List.length_nil, Nat.zero_add] at hroom
    rw [if_neg h2, if_neg h2]
    by_cases h3 : start < 3
    · rw [if_pos h3] at hroom
      rw [if_pos h3, if_pos h3, if_neg h3']
      exact thread_func_loop_spec cap e he e U64 3 [] (by decide) (by omega) he
        (by simpa using hroom)
    · rw [if_neg h3] at hroom
      rw [if_neg h3, if_neg h3]
      by_cases hev : start % 2 = 0
      · rw [if_pos hev] at hroom
        rw [if_pos hev, if_pos hev, Nat.mod_eq_of_lt (show start + 1 < U64 by omega)]
        exact thread_func_loop_spec cap e he e U64 (start + 1) [] (by omega) (by omega) he
          (by simpa using hroom)
      · rw [if_neg hev] at hroom
        rw [if_neg hev, if_neg hev]
        exact thread_func_loop_spec cap e he e U64 start [] (by omega) (by omega) he
          (by simpa using hroom)

theorem scanResult_length_le_sub (start e : Nat) :
    (scanResult start e).length ≤ e - start := by
  unfold scanResult
  rw [List.length_append]
  by_cases h2 : start ≤ 2 ∧ 2 < e
  · have h3 : start < 3 := by omega
    rw [if_pos h2, if_pos h3]
    have := oddPrimesFrom_length_le 3 e
    simp only [List.length_singleton]
    omega
  · rw [if_neg h2]
    simp only [List.length_nil, Nat.zero_add]
    split_ifs
    · have := oddPrimesFrom_length_le 3 e
      omega
    · have := oddPrimesFrom_length_le (start + 1) e
      omega
    · have := oddPrimesFrom_length_le start e
      omega

/-- The index bound of the result buffer: for `R ≥ 1` and `start + R ≤ 2 ^ 64 - 1` every write
`found[count++] = …` of `thread_func` uses an index below `R`, at most `R` writes are made,
and the values written are the buffer `thread_scan` hands over when it has room for `R`
elements. -/
theorem thread_scan_writes_index_lt (start R : Nat) (hR : 1 ≤ R)
    (h : start + R ≤ 2 ^ 64 - 1) :
    ∃ ws, thread_scan_writes start (start + R) = some ws ∧ (∀ p ∈ ws, p.1 < R) ∧
      ws.length ≤ R ∧
      thread_scan R start (start + R) = ThreadResult.handed_over (ws.map Prod.snd) := by
  have hU : U64 = 2 ^ 64 := rfl
  obtain ⟨h1, h2, h3⟩ := indexFrom_facts (scanResult start (start + R)) 0
  have hlen := scanResult_length_le start (start + R) (by omega)
  refine ⟨_, thread_scan_writes_spec start (start + R) (by omega) (by omega), ?_, ?_, ?_⟩
  · intro p hp
    have := h3 p hp
    omega
  · omega
  · rw [h1]
    exact thread_scan_spec R start (start + R) (by omega) (by omega) (by omega)

/-- For fewer than `2 ^ 61` elements the byte count does not wrap and the buffer has room
for exactly `range` elements. -/
theorem found_capacity_eq (range : Nat) (h : range < 2 ^ 61) : found_capacity range = range := by
  have hU : U64 = 2 ^ 64 := rfl
  unfold found_capacity sizeof_uint64_t
  rw [Nat.mod_eq_of_lt (by omega)]
  omega

theorem thread_scan_writes_example :
    thread_scan_writes 1 11 = some [(0, 2), (1, 3), (2, 5), (3, 7)] := by decide

/-- Claim C12 fails for `R = 2305843009213693952 = 2 ^ 61` and `start = 1`, an input within
the claim's bounds: the byte count `R * sizeof(uint64_t)` wraps to 0, so the buffer has room
for no element, yet `thread_func` writes the value 2 at index 0. -/
theorem found_buffer_overflow :
    (1 ≤ 2305843009213693952 ∧ 1 + 2305843009213693952 ≤ 2 ^ 64 - 1) ∧
    found_capacity 2305843009213693952 = 0 ∧
    ∃ ws, thread_scan_writes 1 (1 + 2305843009213693952) = some ws ∧ (0, 2) ∈ ws := by
  refine ⟨by decide, by decide, _,
    thread_scan_writes_spec 1 (1 + 2305843009213693952) (by decide) (by decide), ?_⟩
  unfold scanResult
  rw [if_pos (by decide), indexFrom_append]
  exact List.mem_append_left _ (List.mem_cons_self _ _)

/-! ### Runs of `thread_func` with a buffer that has room -/

/-- When `malloc` returns a buffer and `range < 2 ^ 61`, so that the byte count does not
wrap, `thread_func` hands over the list `scanResult` of its range. -/
theorem thread_func_spec (pid tid thread_num range start_num : Nat) (hR : range < 2 ^ 61) :
    thread_func true pid tid thread_num range start_num =
      ThreadResult.handed_over (scanResult (thread_range pid tid thread_num range start_num).1
        (thread_range pid tid thread_num range start_num).2) := by
  obtain ⟨h1, h2⟩ := thread_range_lt pid tid thread_num range start_num
  have hlen := scanResult_length_le_sub (thread_range pid tid thread_num range start_num).1
    (thread_range pid tid thread_num range start_num).2
  have hsub : (thread_range pid tid thread_num range start_num).2 -
      (thread_range pid tid thread_num range start_num).1 ≤ range := by
    have hle : (thread_range pid tid thread_num range start_num).2 ≤
        (thread_range pid tid thread_num range start_num).1 + range := Nat.mod_le _ _
    omega
  have hroom : (scanResult (thread_range pid tid thread_num range start_num).1
      (thread_range pid tid thread_num range start_num).2).length ≤ range := by omega
  have hspec := thread_scan_spec range _ _ h1 h2 hroom
  unfold thread_func
  simp only []
  rw [if_pos trivial, found_capacity_eq range hR]
  exact hspec

/-- With a buffer, `R < 2 ^ 61` and `S + G * W * R ≤ 2 ^ 64 - 1`, the buffer handed over by
`thread_func` holds exactly the primes of `[start, end)`, each once. -/
theorem thread_func_exactly_primes_of_room (G W R S g w : Nat) (hR : 1 ≤ R)
    (hR61 : R < 2 ^ 61) (hsum : S + G * W * R ≤ 2 ^ 64 - 1) (hg : g < G) (hw : w < W) :
    ∃ found, thread_func true g w W R S = ThreadResult.handed_over found ∧
      (∀ p ∈ found, p.Prime ∧ S + (g * W + w) * R ≤ p ∧ p < S + (g * W + w) * R + R) ∧
      (∀ p, p.Prime → S + (g * W + w) * R ≤ p → p < S + (g * W + w) * R + R →
        found.count p = 1) := by
  refine ⟨_, thread_func_spec g w W R S hR61, ?_, ?_⟩
  · intro p hp
    rw [thread_range_exact G W R S g w hR hsum hg hw, mem_scanResult] at hp
    exact hp
  · intro p hp h1 h2
    apply List.count_eq_one_of_mem
    · exact (scanResult_sorted _ _).imp (fun h => Nat.ne_of_lt h)
    · rw [thread_range_exact G W R S g w hR hsum hg hw, mem_scanResult]
      exact ⟨hp, h1, h2⟩

/-- With a buffer and `R < 2 ^ 61` the buffer handed over by `thread_func` is strictly
increasing. -/
theorem thread_func_strictly_increasing_of_room (g w W R S : Nat) (hR61 : R < 2 ^ 61) :
    ∃ found, thread_func true g w W R S = ThreadResult.handed_over found ∧
      found.Pairwise (fun a b => a < b) :=
  ⟨_, thread_func_spec g w W R S hR61, scanResult_sorted _ _⟩

/-- With a buffer that has room for `R` elements, the scan of `thread_func` over
`[start, start + R)` hands over the list of the naive scan. -/
theorem thread_scan_eq_naive_scan_of_room (cap start R : Nat) (h : start + R ≤ 2 ^ 64 - 1)
    (hcap : R ≤ cap) :
    thread_scan cap start (start + R) =
      ThreadResult.handed_over (naive_scan start (start + R)) := by
  have hU : U64 = 2 ^ 64 := rfl
  have hlen := scanResult_length_le_sub start (start + R)
  rw [thread_scan_spec cap start (start + R) (by omega) (by omega) (by omega)]
  exact congrArg ThreadResult.handed_over
    (scanResult_eq_naive_scan start (start + R) (by omega))

end PrimePlotter
